import Mathlib

/-!
Shallow embedding of the Lab3 sequence-container library
(src/src/myvector.h, src/src/slist.h, src/src/dlist.h):
a growable array `myvector`, a singly linked list `slist` and a doubly
linked list `dlist`, together with theorems about their operations.

Modelling conventions, used consistently below:
* C++ `int` counters (`length`, `capacity`) are modelled as `Nat` (they are
  non-negative in every reachable state); `int` position/index arguments are
  modelled as `Int`, so negative arguments such as `erase(-1)` are expressible.
* `throw std::out_of_range` is modelled as `Except.error Err.indexOutOfRange`.
* Each pair of lvalue/rvalue overloads (`push_back(T&)` / `push_back(T&&)`,
  likewise `insert`) performs the same field assignments up to copying versus
  moving the value, so one Lean function models both overloads.
* `myvector`'s buffer `unique_ptr<T[]>` is a `List T` whose length is the
  allocated capacity; cells that were never assigned hold `default`.
* an `slist` `Node` (a value plus the exclusively owned `next` chain) is
  exactly a cons cell, so the owned chain hanging off `head` is a `List T`.
* `dlist` nodes live in an arena `heap : List (DoubleNode T)`; the
  `shared_ptr next` and `weak_ptr prev` fields are `Option Nat` arena ids.
  Destroyed nodes simply become unreachable from `head`.
-/

/-- Error kind of the library: every container throws
`std::out_of_range("Index out of range")` on a bad position or index. -/
inductive Err where
  | indexOutOfRange
deriving DecidableEq

/-- State of a C++ container object after a call that may throw: on `ok` the
mutated state, on an exception the original state — faithful because every
operation below checks bounds before performing any mutation. -/
def afterSt {σ : Type} (s : σ) (r : Except Err σ) : σ :=
  match r with
  | .ok w => w
  | .error _ => s

/-! Generic list lemmas about `set`, `getD`, `take` and `drop`, used to reason
about buffer writes and pointer surgery. -/

lemma lGetD_set_self {α : Type} (l : List α) (i : Nat) (a d : α) (h : i < l.length) :
    (l.set i a).getD i d = a := by
  induction l generalizing i with
  | nil => simp at h
  | cons x xs ih =>
    cases i with
    | zero => simp
    | succ j => simpa using ih j (by simpa using h)

lemma lGetD_set_ne {α : Type} (l : List α) (i j : Nat) (a d : α) (h : i ≠ j) :
    (l.set i a).getD j d = l.getD j d := by
  induction l generalizing i j with
  | nil => simp
  | cons x xs ih =>
    cases i with
    | zero =>
      cases j with
      | zero => exact absurd rfl h
      | succ m => simp
    | succ n =>
      cases j with
      | zero => simp
      | succ m => simpa using ih n m (by omega)

lemma lGetD_append_lt {α : Type} (l l2 : List α) (i : Nat) (d : α) (h : i < l.length) :
    (l ++ l2).getD i d = l.getD i d := by
  induction l generalizing i with
  | nil => simp at h
  | cons x xs ih =>
    cases i with
    | zero => simp
    | succ j => simpa using ih j (by simpa using h)

lemma lGetD_append_self {α : Type} (l : List α) (a d : α) :
    (l ++ [a]).getD l.length d = a := by
  induction l with
  | nil => simp
  | cons x xs ih => simp [ih]

lemma lTake_set_of_le {α : Type} (l : List α) (i n : Nat) (a : α) (h : n ≤ i) :
    (l.set i a).take n = l.take n := by
  induction l generalizing i n with
  | nil => simp
  | cons x xs ih =>
    cases i with
    | zero =>
      cases n with
      | zero => simp
      | succ m => omega
    | succ j =>
      cases n with
      | zero => simp
      | succ m => simpa using ih j m (by omega)

lemma lTake_succ_getD {α : Type} (l : List α) (n : Nat) (d : α) (h : n < l.length) :
    l.take (n + 1) = l.take n ++ [l.getD n d] := by
  induction l generalizing n with
  | nil => simp at h
  | cons x xs ih =>
    cases n with
    | zero => simp
    | succ m => simpa using ih m (by simpa using h)

lemma lSet_take_succ {α : Type} (l : List α) (n : Nat) (a : α) (h : n < l.length) :
    (l.set n a).take (n + 1) = l.take n ++ [a] := by
  rw [lTake_succ_getD (l.set n a) n a (by simpa using h)]
  rw [lTake_set_of_le l n n a (le_refl n), lGetD_set_self l n a a h]

lemma lDrop_set_of_lt {α : Type} (l : List α) (i n : Nat) (a : α) (h : i < n) :
    (l.set i a).drop n = l.drop n := by
  induction l generalizing i n with
  | nil => simp
  | cons x xs ih =>
    cases i with
    | zero =>
      cases n with
      | zero => omega
      | succ m => simp
    | succ j =>
      cases n with
      | zero => omega
      | succ m => simpa using ih j m (by omega)

lemma lDrop_set_self {α : Type} (l : List α) (n : Nat) (a : α) (h : n < l.length) :
    (l.set n a).drop n = a :: l.drop (n + 1) := by
  induction l generalizing n with
  | nil => simp at h
  | cons x xs ih =>
    cases n with
    | zero => simp
    | succ m => simpa using ih m (by simpa using h)

lemma lDrop_succ_getD {α : Type} (l : List α) (n : Nat) (d : α) (h : n < l.length) :
    l.drop n = l.getD n d :: l.drop (n + 1) := by
  induction l generalizing n with
  | nil => simp at h
  | cons x xs ih =>
    cases n with
    | zero => simp
    | succ m => simpa using ih m (by simpa using h)

lemma lNodupBound (ids : List Nat) (N : Nat) (hn : ids.Nodup) (hb : ∀ i ∈ ids, i < N) :
    ids.length ≤ N := by
  classical
  have hsub : ids.toFinset ⊆ Finset.range N := by
    intro i hi
    rw [List.mem_toFinset] at hi
    exact Finset.mem_range.mpr (hb i hi)
  have hcard := Finset.card_le_card hsub
  rw [Finset.card_range] at hcard
  have : ids.toFinset.card = ids.length := List.toFinset_card_of_nodup hn
  omega

/-! The growable array `myvector` (src/src/myvector.h).

Fields: `data` is the owned buffer (`unique_ptr<T[]>`, modelled as a list whose
length is the allocated capacity, with `default` in never-assigned cells),
`capacity` the allocation size, `length` the element count. -/

structure myvector (T : Type) where
  data : List T
  capacity : Nat
  length : Nat
deriving DecidableEq

/-- Buffer copy loop of `resize` / copy assignment: for `i` in `[0, n)`,
`dst[i] = src[i]` (myvector.h lines 24-27 and 186-189). -/
def copyCells {T : Type} [Inhabited T] (src dst : List T) : Nat → List T
  | 0 => dst
  | n + 1 => (copyCells src dst n).set n (src.getD n default)

/-- Default constructor (myvector.h lines 33-38): capacity 1, length 0,
freshly allocated one-cell buffer. -/
def myvector.mkEmpty (T : Type) [Inhabited T] : myvector T :=
  { data := List.replicate 1 default, capacity := 1, length := 0 }

/-- Growth step (myvector.h lines 19-29): `capacity *= 2`, allocate a buffer of
the new capacity, copy the `length` existing cells into it. -/
def myvector.resize {T : Type} [Inhabited T] (v : myvector T) : myvector T :=
  { data := copyCells v.data (List.replicate (v.capacity * 2) default) v.length,
    capacity := v.capacity * 2, length := v.length }

/-- Append (myvector.h lines 63-82, both overloads): grow when full, store at
index `length`, increment `length`. -/
def myvector.push_back {T : Type} [Inhabited T] (v : myvector T) (value : T) : myvector T :=
  let v1 := if v.length = v.capacity then v.resize else v
  { v1 with data := v1.data.set v1.length value, length := v1.length + 1 }

/-- Right-shift loop of `insert` (myvector.h lines 96-99): for
`i = length; i > position; --i`, `data[i] = data[i-1]`; the second `Nat`
argument is the loop counter `i`. -/
def shiftRightCells {T : Type} [Inhabited T] (position : Nat) : List T → Nat → List T
  | data, 0 => data
  | data, i + 1 =>
    if i + 1 > position then
      shiftRightCells position (data.set (i + 1) (data.getD i default)) i
    else data

/-- Positional insert (myvector.h lines 85-123, both overloads): bounds check
first, then grow when full, shift right from the end, place the value,
increment `length`. -/
def myvector.insert {T : Type} [Inhabited T] (v : myvector T) (value : T) (position : Int) :
    Except Err (myvector T) :=
  if position > (v.length : Int) ∨ position < 0 then .error .indexOutOfRange
  else
    let v1 := if v.length = v.capacity then v.resize else v
    let p := position.toNat
    .ok { v1 with
          data := (shiftRightCells p v1.data v1.length).set p value
          length := v1.length + 1 }

/-- Left-shift loop of `erase` (myvector.h lines 132-135): starting at cell `i`,
run `k` iterations of `data[i] = data[i+1]; ++i`. -/
def shiftLeftCells {T : Type} [Inhabited T] : List T → Nat → Nat → List T
  | data, _, 0 => data
  | data, i, k + 1 => shiftLeftCells (data.set i (data.getD (i + 1) default)) (i + 1) k

/-- Positional erase (myvector.h lines 126-138): bounds check first, then shift
cells `[position+1, length)` left by one and decrement `length`. -/
def myvector.erase {T : Type} [Inhabited T] (v : myvector T) (position : Int) :
    Except Err (myvector T) :=
  if position ≥ (v.length : Int) ∨ position < 0 then .error .indexOutOfRange
  else
    let p := position.toNat
    .ok { v with
          data := shiftLeftCells v.data p (v.length - 1 - p)
          length := v.length - 1 }

/-- Checked element access `operator[]` (myvector.h lines 141-146). -/
def myvector.get {T : Type} [Inhabited T] (v : myvector T) (index : Int) : Except Err T :=
  if index < 0 ∨ index ≥ (v.length : Int) then .error .indexOutOfRange
  else .ok (v.data.getD index.toNat default)

/-- The logical element sequence: buffer cells `[0, length)`.  This is also
exactly what iteration `begin()`/`end()` (myvector.h lines 199-221) yields —
the iterator walks raw pointers from `data` to `data + length`. -/
def myvector.toList {T : Type} (v : myvector T) : List T := v.data.take v.length

/-- Rendering of a value sequence, one element followed by one space each —
shared textual contract of the three `print` functions. -/
def rowString {T : Type} [ToString T] : List T → String
  | [] => ""
  | x :: rest => toString x ++ " " ++ rowString rest

/-- Print loop (myvector.h lines 151-154): for `i` in `[0, length)`, emit
`data[i]` and a space; the `Nat` argument is the loop bound. -/
def myvector.printIdx {T : Type} [Inhabited T] [ToString T] (data : List T) : Nat → String
  | 0 => ""
  | n + 1 => myvector.printIdx data n ++ (toString (data.getD n default) ++ " ")

/-- Output of `print()` (myvector.h lines 149-156): the elements in index
order, space-separated, newline-terminated.  The function reads the fields and
produces text only — it performs no mutation. -/
def myvector.print {T : Type} [Inhabited T] [ToString T] (v : myvector T) : String :=
  myvector.printIdx v.data v.length ++ "\n"

/-- Move constructor (myvector.h lines 41-51): returns (new object, moved-from
source); the source keeps no buffer and both counters become 0. -/
def myvector.moveCtor {T : Type} (v : myvector T) : myvector T × myvector T :=
  ({ data := v.data, capacity := v.capacity, length := v.length },
   { data := [], capacity := 0, length := 0 })

/-- Move assignment (myvector.h lines 159-174): self-assignment check first
(`same` models `this == &vect`), otherwise steal buffer and counters and clear
the source.  Returns (assigned-to object, source object). -/
def myvector.moveAssign {T : Type} (dst src : myvector T) (same : Bool) :
    myvector T × myvector T :=
  if same then (dst, src)
  else ({ data := src.data, capacity := src.capacity, length := src.length },
        { data := [], capacity := 0, length := 0 })

/-- Copy assignment (myvector.h lines 177-196): self-assignment check first,
otherwise allocate a fresh buffer of the source's capacity, copy the source's
`length` elements, adopt the source's counters. -/
def myvector.copyAssign {T : Type} [Inhabited T] (dst src : myvector T) (same : Bool) :
    myvector T :=
  if same then dst
  else { data := copyCells src.data (List.replicate src.capacity default) src.length,
         capacity := src.capacity, length := src.length }

/-- Well-formedness of a `myvector` state: the buffer has exactly `capacity`
cells, the element count fits, and capacity is positive.  This holds for the
default-constructed vector and is preserved by append/insert/erase/copy; it
fails only for the moved-from state (capacity 0). -/
def myvector.Good {T : Type} (v : myvector T) : Prop :=
  v.data.length = v.capacity ∧ v.length ≤ v.capacity ∧ 1 ≤ v.capacity

instance {T : Type} (v : myvector T) : Decidable v.Good := by
  unfold myvector.Good
  infer_instance

lemma copyCells_length {T : Type} [Inhabited T] (src dst : List T) (n : Nat) :
    (copyCells src dst n).length = dst.length := by
  induction n with
  | zero => rfl
  | succ m ih => simp [copyCells, ih]

lemma copyCells_take {T : Type} [Inhabited T] (src dst : List T) (n : Nat)
    (h1 : n ≤ src.length) (h2 : n ≤ dst.length) :
    (copyCells src dst n).take n = src.take n := by
  induction n with
  | zero => simp
  | succ m ih =>
    have hm : m < (copyCells src dst m).length := by
      rw [copyCells_length]; omega
    rw [copyCells, lSet_take_succ _ m _ hm, ih (by omega) (by omega),
        lTake_succ_getD src m default (by omega)]

lemma myvector.resize_spec {T : Type} [Inhabited T] (v : myvector T) (hg : v.Good) :
    (v.resize).Good ∧ (v.resize).toList = v.toList ∧
    (v.resize).capacity = v.capacity * 2 ∧ (v.resize).length = v.length ∧
    (v.resize).length < (v.resize).capacity := by
  obtain ⟨hd, hl, hc⟩ := hg
  refine ⟨⟨?_, by simp [myvector.resize]; omega, by simp [myvector.resize]; omega⟩, ?_, rfl, rfl, ?_⟩
  · simp [myvector.resize, copyCells_length]
  · simp only [myvector.resize, myvector.toList]
    exact copyCells_take v.data _ v.length (by omega) (by simp; omega)
  · simp [myvector.resize]; omega

lemma myvector.push_back_good {T : Type} [Inhabited T] (v : myvector T) (x : T) (hg : v.Good) :
    (v.push_back x).Good ∧ (v.push_back x).toList = v.toList ++ [x] ∧
    (v.push_back x).length = v.length + 1 := by
  obtain ⟨hd, hl, hc⟩ := hg
  by_cases hfull : v.length = v.capacity
  · obtain ⟨⟨hd2, hl2, hc2⟩, ht2, hcap2, hlen2, hroom⟩ := myvector.resize_spec v ⟨hd, hl, hc⟩
    have hlt : v.resize.length < v.resize.data.length := by omega
    have he : v.push_back x =
        { v.resize with data := v.resize.data.set v.resize.length x,
                        length := v.resize.length + 1 } := by
      simp only [myvector.push_back]
      rw [if_pos hfull]
    rw [he]
    refine ⟨⟨by simp; omega, by simp; omega, by simp; omega⟩, ?_, by simp [hlen2]⟩
    show ((v.resize.data.set v.resize.length x).take (v.resize.length + 1)) = _
    rw [lSet_take_succ _ _ _ hlt, ← myvector.toList, ht2]
  · have hlt : v.length < v.data.length := by omega
    have he : v.push_back x =
        { v with data := v.data.set v.length x, length := v.length + 1 } := by
      simp only [myvector.push_back]
      rw [if_neg hfull]
    rw [he]
    refine ⟨⟨by simp; omega, by simp; omega, by simp; omega⟩, ?_, by simp⟩
    show ((v.data.set v.length x).take (v.length + 1)) = _
    rw [lSet_take_succ _ _ _ hlt]
    rfl

lemma lGetD_drop {α : Type} (l : List α) (p k : Nat) (d : α) :
    (l.drop p).getD k d = l.getD (p + k) d := by
  induction l generalizing p with
  | nil => simp
  | cons x xs ih =>
    cases p with
    | zero => simp
    | succ q =>
      have h2 := ih q
      simp only [List.drop_succ_cons] at h2 ⊢
      rw [h2]
      rw [Nat.succ_add]
      rfl

lemma lGetD_take {α : Type} (l : List α) (k n : Nat) (d : α) (h : k < n) :
    (l.take n).getD k d = l.getD k d := by
  induction l generalizing k n with
  | nil => simp
  | cons x xs ih =>
    cases n with
    | zero => omega
    | succ m =>
      cases k with
      | zero => simp
      | succ j => simpa using ih j m (by omega)

lemma lDrop_take {α : Type} (l : List α) (m n : Nat) :
    (l.take n).drop m = (l.drop m).take (n - m) := by
  induction l generalizing m n with
  | nil => simp
  | cons x xs ih =>
    cases n with
    | zero => simp
    | succ k =>
      cases m with
      | zero => simp
      | succ j => simpa using ih j k

lemma lDrop_set_commute {α : Type} (l : List α) (j p : Nat) (a : α) (h : p ≤ j) :
    (l.set j a).drop p = (l.drop p).set (j - p) a := by
  induction l generalizing j p with
  | nil => simp
  | cons x xs ih =>
    cases p with
    | zero => simp
    | succ q =>
      cases j with
      | zero => omega
      | succ k =>
        have := ih k q (by omega)
        simpa [Nat.succ_sub_succ] using this

lemma lTake_set_commute {α : Type} (l : List α) (i n : Nat) (a : α) (h : i < n) :
    (l.set i a).take n = (l.take n).set i a := by
  induction l generalizing i n with
  | nil => simp
  | cons x xs ih =>
    cases i with
    | zero =>
      cases n with
      | zero => omega
      | succ m => simp
    | succ j =>
      cases n with
      | zero => omega
      | succ m => simpa using ih j m (by omega)

lemma lSet_append_lt {α : Type} (A B : List α) (i : Nat) (x : α) (h : i < A.length) :
    (A ++ B).set i x = A.set i x ++ B := by
  induction A generalizing i with
  | nil => simp at h
  | cons a rest ih =>
    cases i with
    | zero => simp
    | succ j => simpa using ih j (by simpa using h)

lemma lSet_append_right (A B : List α) (x : α) :
    (A ++ B).set A.length x = A ++ B.set 0 x := by
  induction A with
  | nil => simp
  | cons a rest ih => simp [ih]

lemma lTake_append_exact {α : Type} (A B : List α) (n : Nat) (h : A.length = n) :
    (A ++ B).take n = A := by
  subst h
  induction A with
  | nil => simp
  | cons a rest ih => simp [ih]

lemma shiftRightCells_length {T : Type} [Inhabited T] (p : Nat) (data : List T) (L : Nat) :
    (shiftRightCells p data L).length = data.length := by
  induction L generalizing data with
  | zero => rfl
  | succ i ih =>
    by_cases h : i + 1 > p
    · rw [shiftRightCells, if_pos h, ih]
      simp
    · rw [shiftRightCells, if_neg h]

lemma shiftLeftCells_length {T : Type} [Inhabited T] (data : List T) (i k : Nat) :
    (shiftLeftCells data i k).length = data.length := by
  induction k generalizing data i with
  | zero => rfl
  | succ m ih =>
    rw [shiftLeftCells, ih]
    simp

lemma shiftRightCells_spec {T : Type} [Inhabited T] (data : List T) (p L : Nat)
    (hp : p ≤ L) (hL : L < data.length) :
    shiftRightCells p data L =
      data.take (p + 1) ++ (data.drop p).take (L - p) ++ data.drop (L + 1) := by
  induction L generalizing data with
  | zero =>
    have hp0 : p = 0 := by omega
    subst hp0
    rw [show shiftRightCells 0 data 0 = data from rfl]
    rw [show (0 : Nat) - 0 = 0 from rfl, List.take_zero, List.append_nil]
    exact (List.take_append_drop (0 + 1) data).symm
  | succ i ih =>
    by_cases hgt : i + 1 > p
    · rw [shiftRightCells, if_pos hgt]
      have hlen : i < (data.set (i + 1) (data.getD i default)).length := by
        simp; omega
      rw [ih (data.set (i + 1) (data.getD i default)) (by omega) hlen]
      have e1 : (data.set (i + 1) (data.getD i default)).take (p + 1) = data.take (p + 1) :=
        lTake_set_of_le _ _ _ _ (by omega)
      have e2 : ((data.set (i + 1) (data.getD i default)).drop p).take (i - p)
          = (data.drop p).take (i - p) := by
        rw [lDrop_set_commute _ _ _ _ (by omega)]
        exact lTake_set_of_le _ _ _ _ (by omega)
      have e3 : (data.set (i + 1) (data.getD i default)).drop (i + 1)
          = data.getD i default :: data.drop (i + 2) :=
        lDrop_set_self _ _ _ (by omega)
      rw [e1, e2, e3]
      have e4 : (data.drop p).take (i + 1 - p)
          = (data.drop p).take (i - p) ++ [data.getD i default] := by
        have hlt : i - p < (data.drop p).length := by simp; omega
        have := lTake_succ_getD (data.drop p) (i - p) default hlt
        rw [show i + 1 - p = (i - p) + 1 by omega, this, lGetD_drop]
        rw [show p + (i - p) = i by omega]
      rw [e4]
      simp
    · have hpe : p = i + 1 := by omega
      rw [shiftRightCells, if_neg hgt, hpe]
      simp

lemma shiftLeftCells_spec {T : Type} [Inhabited T] (data : List T) (p k : Nat)
    (h : p + k < data.length) :
    shiftLeftCells data p k =
      data.take p ++ (data.drop (p + 1)).take k ++ data.drop (p + k) := by
  induction k generalizing data p with
  | zero =>
    simp [shiftLeftCells]
  | succ m ih =>
    rw [shiftLeftCells]
    have hlen : p + 1 + m < (data.set p (data.getD (p + 1) default)).length := by
      simp; omega
    rw [ih (data.set p (data.getD (p + 1) default)) (p + 1) hlen]
    have e1 : (data.set p (data.getD (p + 1) default)).take (p + 1)
        = data.take p ++ [data.getD (p + 1) default] :=
      lSet_take_succ _ _ _ (by omega)
    have e2 : (data.set p (data.getD (p + 1) default)).drop (p + 1 + 1)
        = data.drop (p + 1 + 1) := lDrop_set_of_lt _ _ _ _ (by omega)
    have e3 : (data.set p (data.getD (p + 1) default)).drop (p + 1 + m)
        = data.drop (p + 1 + m) := lDrop_set_of_lt _ _ _ _ (by omega)
    rw [e1, e2, e3]
    have e4 : (data.drop (p + 1)).take (m + 1)
        = data.getD (p + 1) default :: (data.drop (p + 1 + 1)).take m := by
      rw [lDrop_succ_getD data (p + 1) default (by omega)]
      simp
    rw [e4]
    have e5 : p + (m + 1) = p + 1 + m := by omega
    rw [e5]
    simp

lemma myvector.insert_sequence {T : Type} [Inhabited T] (v : myvector T) (x : T) (p : Int)
    (hg : v.Good) (h0 : 0 ≤ p) (h1 : p ≤ (v.length : Int)) :
    ∃ v2, v.insert x p = .ok v2 ∧ v2.Good ∧
      v2.toList = v.toList.take p.toNat ++ x :: v.toList.drop p.toNat ∧
      v2.length = v.length + 1 := by
  have hchk : ¬ (p > (v.length : Int) ∨ p < 0) := by omega
  set v1 := if v.length = v.capacity then v.resize else v with hv1
  have hv1g : v1.Good ∧ v1.toList = v.toList ∧ v1.length = v.length ∧
      v1.length < v1.data.length := by
    by_cases hfull : v.length = v.capacity
    · obtain ⟨⟨a, b, c⟩, t, cc, ll, r⟩ := myvector.resize_spec v hg
      rw [hv1, if_pos hfull]
      exact ⟨⟨a, b, c⟩, t, ll, by omega⟩
    · obtain ⟨a, b, c⟩ := hg
      rw [hv1, if_neg hfull]
      exact ⟨⟨a, b, c⟩, rfl, rfl, by omega⟩
  obtain ⟨⟨ha, hb, hc⟩, ht, hl, hroom⟩ := hv1g
  have he : v.insert x p = .ok { v1 with
      data := (shiftRightCells p.toNat v1.data v1.length).set p.toNat x,
      length := v1.length + 1 } := by
    simp only [myvector.insert]
    rw [if_neg hchk]
  set pn := p.toNat with hpn
  have hpL : pn ≤ v1.length := by omega
  have hLd : v1.length < v1.data.length := hroom
  refine ⟨_, he, ?_, ?_, by simpa using hl⟩
  · refine ⟨?_, ?_, ?_⟩
    · simp [shiftRightCells_length]
      omega
    · simp
      omega
    · simp
      omega
  · show ((shiftRightCells pn v1.data v1.length).set pn x).take (v1.length + 1) = _
    rw [shiftRightCells_spec v1.data pn v1.length hpL hLd]
    have hA : pn < (v1.data.take (pn + 1)).length := by
      simp
      omega
    rw [List.append_assoc]
    rw [lSet_append_lt _ _ _ _ hA]
    have hAe : (v1.data.take (pn + 1)).set pn x = v1.data.take pn ++ [x] := by
      rw [lTake_succ_getD v1.data pn default (by omega)]
      have : (v1.data.take pn).length = pn := by simp; omega
      calc (v1.data.take pn ++ [v1.data.getD pn default]).set pn x
          = (v1.data.take pn ++ [v1.data.getD pn default]).set (v1.data.take pn).length x := by
            rw [this]
        _ = v1.data.take pn ++ [x] := by rw [lSet_append_right]; rfl
    rw [hAe]
    have hexact : (v1.data.take pn ++ [x] ++ (v1.data.drop pn).take (v1.length - pn)).length
        = v1.length + 1 := by
      simp
      omega
    rw [show v1.data.take pn ++ [x] ++ ((v1.data.drop pn).take (v1.length - pn) ++ v1.data.drop (v1.length + 1))
        = (v1.data.take pn ++ [x] ++ (v1.data.drop pn).take (v1.length - pn)) ++ v1.data.drop (v1.length + 1) by
      simp]
    rw [lTake_append_exact _ _ _ hexact]
    rw [← ht]
    show v1.data.take pn ++ [x] ++ (v1.data.drop pn).take (v1.length - pn)
        = v1.toList.take pn ++ x :: v1.toList.drop pn
    simp only [myvector.toList]
    rw [List.take_take, Nat.min_def, if_pos hpL, lDrop_take]
    simp

lemma myvector.erase_sequence {T : Type} [Inhabited T] (v : myvector T) (p : Int)
    (hg : v.Good) (h0 : 0 ≤ p) (h1 : p < (v.length : Int)) :
    ∃ v2, v.erase p = .ok v2 ∧ v2.Good ∧
      v2.toList = v.toList.take p.toNat ++ v.toList.drop (p.toNat + 1) ∧
      v2.length = v.length - 1 := by
  obtain ⟨ha, hb, hc⟩ := hg
  have hchk : ¬ (p ≥ (v.length : Int) ∨ p < 0) := by omega
  have he : v.erase p = .ok { v with
      data := shiftLeftCells v.data p.toNat (v.length - 1 - p.toNat),
      length := v.length - 1 } := by
    simp only [myvector.erase]
    rw [if_neg hchk]
  set pn := p.toNat with hpn
  have hlt : pn < v.length := by omega
  have hbound : pn + (v.length - 1 - pn) < v.data.length := by omega
  refine ⟨_, he, ⟨by simp [shiftLeftCells_length]; omega, by simp; omega, by simp; omega⟩,
    ?_, rfl⟩
  show (shiftLeftCells v.data pn (v.length - 1 - pn)).take (v.length - 1) = _
  rw [shiftLeftCells_spec v.data pn (v.length - 1 - pn) hbound]
  have hexact : (v.data.take pn ++ (v.data.drop (pn + 1)).take (v.length - 1 - pn)).length
      = v.length - 1 := by
    simp
    omega
  rw [lTake_append_exact _ _ _ hexact]
  show _ = v.toList.take pn ++ v.toList.drop (pn + 1)
  simp only [myvector.toList]
  rw [List.take_take, Nat.min_def, if_pos (by omega : pn ≤ v.length), lDrop_take]
  rw [show v.length - (pn + 1) = v.length - 1 - pn by omega]

lemma myvector.get_sequence {T : Type} [Inhabited T] (v : myvector T) (i : Int)
    (hg : v.Good) (h0 : 0 ≤ i) (h1 : i < (v.length : Int)) :
    v.get i = .ok (v.toList.getD i.toNat default) := by
  obtain ⟨ha, hb, hc⟩ := hg
  have hchk : ¬ (i < 0 ∨ i ≥ (v.length : Int)) := by omega
  simp only [myvector.get]
  rw [if_neg hchk]
  congr 1
  exact (lGetD_take v.data i.toNat v.length default (by omega)).symm

lemma rowString_append {T : Type} [ToString T] (A B : List T) :
    rowString (A ++ B) = rowString A ++ rowString B := by
  induction A with
  | nil => simp [rowString]
  | cons x rest ih => simp [rowString, ih, String.append_assoc]

lemma myvector.printIdx_spec {T : Type} [Inhabited T] [ToString T] (data : List T) (n : Nat)
    (h : n ≤ data.length) :
    myvector.printIdx data n = rowString (data.take n) := by
  induction n with
  | zero => simp [myvector.printIdx, rowString]
  | succ m ih =>
    rw [myvector.printIdx, ih (by omega), lTake_succ_getD data m default (by omega),
        rowString_append]
    simp [rowString]

lemma myvector.print_spec {T : Type} [Inhabited T] [ToString T] (v : myvector T)
    (hg : v.Good) :
    v.print = rowString v.toList ++ "\n" := by
  obtain ⟨ha, hb, hc⟩ := hg
  rw [myvector.print, myvector.printIdx_spec v.data v.length (by omega)]
  rfl

lemma myvector.mkEmpty_Good {T : Type} [Inhabited T] : (myvector.mkEmpty T).Good := by
  refine ⟨?_, ?_, ?_⟩ <;> simp [myvector.mkEmpty, myvector.Good]

lemma myvector.mkEmpty_seq_nil {T : Type} [Inhabited T] : (myvector.mkEmpty T).toList = [] := rfl

lemma myvector.foldl_sequence {T : Type} [Inhabited T] (S : List T) (v : myvector T) (hg : v.Good) :
    (S.foldl myvector.push_back v).Good ∧
    (S.foldl myvector.push_back v).toList = v.toList ++ S := by
  induction S generalizing v with
  | nil => simpa using hg
  | cons x rest ih =>
    obtain ⟨g2, t2, _⟩ := myvector.push_back_good v x hg
    obtain ⟨g3, t3⟩ := ih (v.push_back x) g2
    refine ⟨g3, ?_⟩
    rw [List.foldl_cons, t3, t2]
    simp

lemma myvector.copyAssign_sequence {T : Type} [Inhabited T] (dst src : myvector T) (hg : src.Good) :
    (dst.copyAssign src false).toList = src.toList ∧
    (dst.copyAssign src false).capacity = src.capacity ∧
    (dst.copyAssign src false).length = src.length ∧
    (dst.copyAssign src false).Good := by
  obtain ⟨ha, hb, hc⟩ := hg
  refine ⟨?_, rfl, rfl, ⟨?_, ?_, ?_⟩⟩
  · show (copyCells src.data (List.replicate src.capacity default) src.length).take src.length
        = src.data.take src.length
    exact copyCells_take _ _ _ (by omega) (by simp; omega)
  · simp [myvector.copyAssign, copyCells_length]
  · simp [myvector.copyAssign]
    omega
  · simp [myvector.copyAssign]
    omega

/-! The singly linked list `slist` (src/src/slist.h).

A `Node<T>` holds a value and the exclusively owned `unique_ptr` to the next
node, which is exactly a cons cell; the owned chain hanging off `head` is
therefore a `List T` (`[]` is the null pointer). -/

structure slist (T : Type) where
  head : List T
  length : Nat
deriving DecidableEq

/-- Default constructor (slist.h lines 42-46): null head, length 0. -/
def slist.mkEmpty (T : Type) : slist T := { head := [], length := 0 }

/-- Append traversal of `push_back` (slist.h lines 63-87): if the chain is
null the new node becomes it, otherwise walk `cur->next` to the last node and
attach the new node there. -/
def sAttach (value : T) : List T → List T
  | [] => [value]
  | x :: rest => x :: sAttach value rest

/-- Append (slist.h lines 63-108, both overloads). -/
def slist.push_back (s : slist T) (value : T) : slist T :=
  { head := sAttach value s.head, length := s.length + 1 }

/-- Walk of `operator[]` (slist.h lines 134-140): advance `index` times, then
read `cur->value`; walking off the end dereferences null — modelled as
`default` (unreachable when `length` matches the chain). -/
def sWalkVal [Inhabited T] : List T → Nat → T
  | [], _ => default
  | x :: _, 0 => x
  | _ :: rest, n + 1 => sWalkVal rest n

/-- Checked element access `operator[]` (slist.h lines 129-142). -/
def slist.get [Inhabited T] (s : slist T) (index : Int) : Except Err T :=
  if index < 0 ∨ index ≥ (s.length : Int) then .error .indexOutOfRange
  else .ok (sWalkVal s.head index.toNat)

/-- Splice of `insert` for position ≥ 1 (slist.h lines 161-173): walk to the
node before the position, then the new node adopts that node's owned tail and
the node adopts the new node. -/
def sSplice (value : T) : List T → Nat → List T
  | x :: rest, 0 => x :: value :: rest
  | [], 0 => [value]
  | x :: rest, n + 1 => x :: sSplice value rest n
  | [], _ + 1 => []

/-- Positional insert (slist.h lines 145-202, both overloads): bounds check,
then either a new head (position 0) or a splice after the predecessor. -/
def slist.insert (s : slist T) (value : T) (position : Int) : Except Err (slist T) :=
  if position > (s.length : Int) ∨ position < 0 then .error .indexOutOfRange
  else if position = 0 then
    .ok { head := value :: s.head, length := s.length + 1 }
  else
    .ok { head := sSplice value s.head (position.toNat - 1), length := s.length + 1 }

/-- Unlink of `erase` for position ≥ 1 (slist.h lines 219-230): walk to the
predecessor, then it adopts what its erased successor owned. -/
def sSkip : List T → Nat → List T
  | x :: rest, 0 => x :: rest.tail
  | [], 0 => []
  | x :: rest, n + 1 => x :: sSkip rest n
  | [], _ + 1 => []

/-- Positional erase (slist.h lines 205-231): bounds check, then either drop
the head (position 0) or skip the erased node after the predecessor. -/
def slist.erase (s : slist T) (position : Int) : Except Err (slist T) :=
  if position ≥ (s.length : Int) ∨ position < 0 then .error .indexOutOfRange
  else if position = 0 then
    .ok { head := s.head.tail, length := s.length - 1 }
  else
    .ok { head := sSkip s.head (position.toNat - 1), length := s.length - 1 }

/-- Output of `print()` (slist.h lines 111-120): walk the chain emitting each
value plus a space, then a newline; text only, no mutation. -/
def slist.print [ToString T] (s : slist T) : String := rowString s.head ++ "\n"

/-- The logical element sequence: the values along the owned chain.  Iteration
with `begin()`/`end()` (slist.h lines 269-290) walks exactly this chain,
yielding each node's value. -/
def slist.toList (s : slist T) : List T := s.head

/-- Move constructor (slist.h lines 49-57); returns (new list, moved-from
source): the head chain's ownership transfers; the source is left null, 0. -/
def slist.moveCtor (s : slist T) : slist T × slist T :=
  ({ head := s.head, length := s.length }, { head := [], length := 0 })

/-- Move assignment (slist.h lines 234-245): self-assignment check (`same`
models `this == &list`), otherwise transfer head and length, clear source. -/
def slist.moveAssign (dst src : slist T) (same : Bool) : slist T × slist T :=
  if same then (dst, src)
  else ({ head := src.head, length := src.length }, { head := [], length := 0 })

/-- Copy assignment (slist.h lines 248-265): self-assignment check, otherwise
clear the target and `push_back` a copy of each source node's value in order. -/
def slist.copyAssign (dst src : slist T) (same : Bool) : slist T :=
  if same then dst
  else src.head.foldl (fun acc v => acc.push_back v) { head := [], length := 0 }

/-- Iterator increment (slist.h lines 279-284): `operator++` follows
`ptr->next` only after checking `ptr != nullptr`.  The raw node pointer is
modelled as the list of nodes hanging from the pointee (`[]` is null). -/
def slist.iterInc : List T → List T
  | [] => []
  | _ :: rest => rest

/-- Well-formedness of an `slist` state: the length counter matches the chain.
Holds for the default-constructed list, preserved by every operation. -/
def slist.Wf (s : slist T) : Prop := s.length = s.head.length

instance {T : Type} (s : slist T) : Decidable s.Wf := by
  unfold slist.Wf
  infer_instance

lemma sAttach_eq (value : T) (l : List T) : sAttach value l = l ++ [value] := by
  induction l with
  | nil => rfl
  | cons x rest ih => simp [sAttach, ih]

lemma sWalkVal_spec [Inhabited T] (l : List T) (n : Nat) (h : n < l.length) :
    sWalkVal l n = l.getD n default := by
  induction l generalizing n with
  | nil => simp at h
  | cons x rest ih =>
    cases n with
    | zero => rfl
    | succ m => simpa [sWalkVal] using ih m (by simpa using h)

lemma sSplice_spec (value : T) (l : List T) (n : Nat) (h : n < l.length) :
    sSplice value l n = l.take (n + 1) ++ value :: l.drop (n + 1) := by
  induction l generalizing n with
  | nil => simp at h
  | cons x rest ih =>
    cases n with
    | zero => simp [sSplice]
    | succ m => simpa [sSplice] using ih m (by simpa using h)

lemma sSkip_spec (l : List T) (n : Nat) (h : n < l.length) :
    sSkip l n = l.take (n + 1) ++ l.drop (n + 2) := by
  induction l generalizing n with
  | nil => simp at h
  | cons x rest ih =>
    cases n with
    | zero =>
      cases rest with
      | nil => simp [sSkip]
      | cons y t => simp [sSkip]
    | succ m => simpa [sSkip] using ih m (by simpa using h)

lemma slist.push_back_snoc (s : slist T) (x : T) :
    (s.push_back x).toList = s.toList ++ [x] ∧ (s.push_back x).length = s.length + 1 := by
  exact ⟨sAttach_eq x s.head, rfl⟩

lemma slist.insert_splice (s : slist T) (x : T) (p : Int)
    (hw : s.Wf) (h0 : 0 ≤ p) (h1 : p ≤ (s.length : Int)) :
    ∃ s2, s.insert x p = .ok s2 ∧ s2.Wf ∧
      s2.toList = s.toList.take p.toNat ++ x :: s.toList.drop p.toNat ∧
      s2.length = s.length + 1 := by
  have hchk : ¬ (p > (s.length : Int) ∨ p < 0) := by omega
  by_cases hz : p = 0
  · refine ⟨_, by simp only [slist.insert]; rw [if_neg hchk, if_pos hz], ?_, ?_, rfl⟩
    · show s.length + 1 = (x :: s.head).length
      simp [slist.Wf] at hw
      simp [hw]
    · subst hz
      simp [slist.toList]
  · have hp1 : 1 ≤ p.toNat := by omega
    have hlt : p.toNat - 1 < s.head.length := by
      simp only [slist.Wf] at hw
      omega
    refine ⟨_, by simp only [slist.insert]; rw [if_neg hchk, if_neg hz], ?_, ?_, rfl⟩
    · show s.length + 1 = (sSplice x s.head (p.toNat - 1)).length
      rw [sSplice_spec x s.head (p.toNat - 1) hlt]
      simp only [slist.Wf] at hw
      simp
      omega
    · show sSplice x s.head (p.toNat - 1) = _
      rw [sSplice_spec x s.head (p.toNat - 1) hlt]
      rw [show p.toNat - 1 + 1 = p.toNat by omega]
      rfl

lemma slist.erase_skip (s : slist T) (p : Int)
    (hw : s.Wf) (h0 : 0 ≤ p) (h1 : p < (s.length : Int)) :
    ∃ s2, s.erase p = .ok s2 ∧ s2.Wf ∧
      s2.toList = s.toList.take p.toNat ++ s.toList.drop (p.toNat + 1) ∧
      s2.length = s.length - 1 := by
  have hchk : ¬ (p ≥ (s.length : Int) ∨ p < 0) := by omega
  simp only [slist.Wf] at hw
  by_cases hz : p = 0
  · refine ⟨_, by simp only [slist.erase]; rw [if_neg hchk, if_pos hz], ?_, ?_, rfl⟩
    · show s.length - 1 = s.head.tail.length
      simp [hw]
    · subst hz
      show s.head.tail = s.toList.take 0 ++ s.toList.drop 1
      simp [slist.toList, List.drop_one]
  · have hp1 : 1 ≤ p.toNat := by omega
    have hlt : p.toNat - 1 < s.head.length := by omega
    refine ⟨_, by simp only [slist.erase]; rw [if_neg hchk, if_neg hz], ?_, ?_, rfl⟩
    · show s.length - 1 = (sSkip s.head (p.toNat - 1)).length
      rw [sSkip_spec s.head (p.toNat - 1) hlt]
      simp
      omega
    · show sSkip s.head (p.toNat - 1) = _
      rw [sSkip_spec s.head (p.toNat - 1) hlt]
      rw [show p.toNat - 1 + 1 = p.toNat by omega,
          show p.toNat - 1 + 2 = p.toNat + 1 by omega]
      rfl

lemma slist.get_walk [Inhabited T] (s : slist T) (i : Int)
    (hw : s.Wf) (h0 : 0 ≤ i) (h1 : i < (s.length : Int)) :
    s.get i = .ok (s.toList.getD i.toNat default) := by
  have hchk : ¬ (i < 0 ∨ i ≥ (s.length : Int)) := by omega
  simp only [slist.Wf] at hw
  simp only [slist.get]
  rw [if_neg hchk, sWalkVal_spec s.head i.toNat (by omega)]
  rfl

lemma slist.foldl_append (S : List T) (s : slist T) :
    (S.foldl slist.push_back s).toList = s.toList ++ S ∧
    (S.foldl slist.push_back s).length = s.length + S.length := by
  induction S generalizing s with
  | nil => simp
  | cons x rest ih =>
    obtain ⟨t3, l3⟩ := ih (s.push_back x)
    refine ⟨?_, ?_⟩
    · rw [List.foldl_cons, t3, (slist.push_back_snoc s x).1]
      simp
    · rw [List.foldl_cons, l3, (slist.push_back_snoc s x).2]
      simp
      omega

lemma slist.copyAssign_copy (dst src : slist T) :
    (dst.copyAssign src false).toList = src.toList ∧
    (dst.copyAssign src false).Wf := by
  have hf := slist.foldl_append src.head (slist.mkEmpty T)
  have he : dst.copyAssign src false = src.head.foldl slist.push_back (slist.mkEmpty T) := by
    simp only [slist.copyAssign]
    rfl
  rw [he]
  refine ⟨?_, ?_⟩
  · rw [hf.1]
    simp [slist.mkEmpty, slist.toList]
  · simp only [slist.Wf]
    rw [hf.2]
    have h1 : (List.foldl slist.push_back (slist.mkEmpty T) src.head).head
        = (List.foldl slist.push_back (slist.mkEmpty T) src.head).toList := rfl
    rw [h1, hf.1]
    simp [slist.mkEmpty, slist.toList]

/-! The doubly linked list `dlist` (src/src/dlist.h).

A `DoubleNode<T>` holds a value, an owning `shared_ptr next` and a non-owning
`weak_ptr prev`.  Nodes are modelled in an arena: `heap` is the list of all
nodes ever allocated, a `shared_ptr`/`weak_ptr` is an `Option Nat` arena id
(`none` is null), and a node freed by the last `shared_ptr` release simply
becomes unreachable from `head`.  Allocation (`make_shared`) appends to the
arena, so ids of live nodes are never reused and every pointer field keeps
denoting the node it was set to — matching `shared_ptr` semantics. -/

structure DoubleNode (T : Type) where
  value : T
  next : Option Nat
  prev : Option Nat
deriving DecidableEq

instance {T : Type} [Inhabited T] : Inhabited (DoubleNode T) :=
  ⟨{ value := default, next := none, prev := none }⟩

structure dlist (T : Type) where
  heap : List (DoubleNode T)
  head : Option Nat
  length : Nat
deriving DecidableEq

/-- Node constructors (dlist.h lines 18-31, both overloads): store the value
and null both links; `make_shared` allocates, modelled as an arena append at
the use sites. -/
def DoubleNode.mk0 {T : Type} (value : T) : DoubleNode T :=
  { value := value, next := none, prev := none }

/-- Dereference of a node pointer (arena id). -/
def getN {T : Type} [Inhabited T] (heap : List (DoubleNode T)) (i : Nat) : DoubleNode T :=
  heap.getD i default

/-- In-place update of the node an id denotes (a write through a pointer). -/
def setN {T : Type} (heap : List (DoubleNode T)) (i : Nat) (n : DoubleNode T) :
    List (DoubleNode T) :=
  heap.set i n

/-- Default constructor (dlist.h lines 45-49): null head, length 0. -/
def dlist.mkEmpty (T : Type) : dlist T := { heap := [], head := none, length := 0 }

/-- Traversal loop of `push_back` (dlist.h lines 78-82): follow `cur->next`
until it is null; the `Nat` argument is termination fuel (the arena size
bounds any acyclic chain). -/
def dFindLast {T : Type} [Inhabited T] (heap : List (DoubleNode T)) (cur : Nat) : Nat → Nat
  | 0 => cur
  | fuel + 1 =>
    match (getN heap cur).next with
    | none => cur
    | some nxt => dFindLast heap nxt fuel

/-- Append (dlist.h lines 66-110, both overloads): allocate the node; if the
list is empty it becomes head, otherwise walk to the last node, set the new
node's weak `prev` to it, and hand it ownership of the new node. -/
def dlist.push_back {T : Type} [Inhabited T] (d : dlist T) (value : T) : dlist T :=
  let nid := d.heap.length
  let heap1 := d.heap ++ [DoubleNode.mk0 value]
  match d.head with
  | none => { heap := heap1, head := some nid, length := d.length + 1 }
  | some h =>
    let cur := dFindLast heap1 h heap1.length
    let heap2 := setN heap1 nid { getN heap1 nid with prev := some cur }
    let heap3 := setN heap2 cur { getN heap2 cur with next := some nid }
    { heap := heap3, head := d.head, length := d.length + 1 }

/-- Walk loop of `operator[]` / `insert` / `erase` (dlist.h lines 136-142,
169-175, 249-255): advance along `next` a given number of steps; `none` means
a null pointer was reached (a dereference of it would be undefined behaviour,
unreachable for well-formed lists and in-range positions). -/
def dWalk {T : Type} [Inhabited T] (heap : List (DoubleNode T)) : Option Nat → Nat → Option Nat
  | p, 0 => p
  | none, _ + 1 => none
  | some i, k + 1 => dWalk heap (getN heap i).next k

/-- Checked element access `operator[]` (dlist.h lines 131-144). -/
def dlist.get {T : Type} [Inhabited T] (d : dlist T) (index : Int) : Except Err T :=
  if index < 0 ∨ index ≥ (d.length : Int) then .error .indexOutOfRange
  else
    match dWalk d.heap d.head index.toNat with
    | some i => .ok (getN d.heap i).value
    | none => .ok default

/-- Link surgery of a non-head insert (dlist.h lines 177-185 and 216-223),
with `nid` the freshly allocated node and `cur` the predecessor found by the
walk: `newNode->next = cur->next; if (newNode->next) newNode->next->prev =
newNode; newNode->prev = cur; cur->next = newNode;`. -/
def dInsertMid {T : Type} [Inhabited T] (heap1 : List (DoubleNode T)) (nid cur : Nat) :
    List (DoubleNode T) :=
  let heap2 := setN heap1 nid { getN heap1 nid with next := (getN heap1 cur).next }
  let heap3 :=
    match (getN heap2 nid).next with
    | some nx => setN heap2 nx { getN heap2 nx with prev := some nid }
    | none => heap2
  let heap4 := setN heap3 nid { getN heap3 nid with prev := some cur }
  setN heap4 cur { getN heap4 cur with next := some nid }

/-- Positional insert (dlist.h lines 147-224, both overloads; the two throw
the same `std::out_of_range` exception type and perform the same link
surgery).  Bounds check first; position 0 re-heads the list, updating the old
head's backward reference; otherwise walk to the predecessor and splice via
`dInsertMid`. -/
def dlist.insert {T : Type} [Inhabited T] (d : dlist T) (value : T) (position : Int) :
    Except Err (dlist T) :=
  if position > (d.length : Int) ∨ position < 0 then .error .indexOutOfRange
  else
    let nid := d.heap.length
    let heap1 := d.heap ++ [DoubleNode.mk0 value]
    if position = 0 then
      match d.head with
      | some h =>
        let heap2 := setN heap1 h { getN heap1 h with prev := some nid }
        let heap3 := setN heap2 nid { getN heap2 nid with next := some h }
        .ok { heap := heap3, head := some nid, length := d.length + 1 }
      | none => .ok { heap := heap1, head := some nid, length := d.length + 1 }
    else
      match dWalk heap1 d.head (position.toNat - 1) with
      | none => .ok d
      | some cur => .ok { heap := dInsertMid heap1 nid cur, head := d.head, length := d.length + 1 }

/-- Link surgery of a non-head erase (dlist.h lines 257-263), with `cur` the
predecessor and `victim` its owned successor: `cur->next = cur->next->next;
if (cur->next) cur->next->prev = cur;`. -/
def dEraseMid {T : Type} [Inhabited T] (heap : List (DoubleNode T)) (cur victim : Nat) :
    List (DoubleNode T) :=
  let heap2 := setN heap cur { getN heap cur with next := (getN heap victim).next }
  match (getN heap2 cur).next with
  | some nx => setN heap2 nx { getN heap2 nx with prev := some cur }
  | none => heap2

/-- Positional erase (dlist.h lines 227-265).  Bounds check first; position 0
drops the head (clearing the new head's backward reference when the list stays
non-empty); otherwise the predecessor adopts what the erased node owned and,
when that successor exists, its backward reference is re-pointed at the
predecessor.  The erased node keeps its arena slot but becomes unreachable. -/
def dlist.erase {T : Type} [Inhabited T] (d : dlist T) (position : Int) :
    Except Err (dlist T) :=
  if position ≥ (d.length : Int) ∨ position < 0 then .error .indexOutOfRange
  else if position = 0 then
    match d.head with
    | none => .ok d
    | some h =>
      match (getN d.heap h).next with
      | none => .ok { heap := d.heap, head := none, length := d.length - 1 }
      | some nh =>
        let heap2 := setN d.heap nh { getN d.heap nh with prev := none }
        .ok { heap := heap2, head := some nh, length := d.length - 1 }
  else
    match dWalk d.heap d.head (position.toNat - 1) with
    | none => .ok d
    | some cur =>
      match (getN d.heap cur).next with
      | none => .ok d
      | some victim =>
        .ok { heap := dEraseMid d.heap cur victim, head := d.head, length := d.length - 1 }

/-- Ids of the nodes reachable from a pointer along `next`, fuel-bounded. -/
def dIds {T : Type} [Inhabited T] (heap : List (DoubleNode T)) : Option Nat → Nat → List Nat
  | none, _ => []
  | some _, 0 => []
  | some i, fuel + 1 => i :: dIds heap (getN heap i).next fuel

/-- The logical element sequence: values along the chain from `head`.
Iteration with `begin()`/`end()` (dlist.h lines 302-327) walks exactly this
chain, yielding each node's value. -/
def dCollect {T : Type} [Inhabited T] (heap : List (DoubleNode T)) : Option Nat → Nat → List T
  | none, _ => []
  | some _, 0 => []
  | some i, fuel + 1 => (getN heap i).value :: dCollect heap (getN heap i).next fuel

def dlist.toList {T : Type} [Inhabited T] (d : dlist T) : List T :=
  dCollect d.heap d.head d.heap.length

/-- Print traversal (dlist.h lines 113-122): each value plus a space. -/
def dPrintAux {T : Type} [Inhabited T] [ToString T] (heap : List (DoubleNode T)) :
    Option Nat → Nat → String
  | none, _ => ""
  | some _, 0 => ""
  | some i, fuel + 1 => toString (getN heap i).value ++ " " ++ dPrintAux heap (getN heap i).next fuel

/-- Output of `print()` (dlist.h lines 113-122): text only, no mutation. -/
def dlist.print {T : Type} [Inhabited T] [ToString T] (d : dlist T) : String :=
  dPrintAux d.heap d.head d.heap.length ++ "\n"

/-- Move constructor (dlist.h lines 52-60): the head (and with it ownership of
every node) transfers; the source is left null, 0. -/
def dlist.moveCtor {T : Type} (d : dlist T) : dlist T × dlist T :=
  ({ heap := d.heap, head := d.head, length := d.length },
   { heap := [], head := none, length := 0 })

/-- Move assignment (dlist.h lines 268-279): self-assignment check (`same`
models `this == &list`), otherwise transfer head and length, clear source. -/
def dlist.moveAssign {T : Type} (dst src : dlist T) (same : Bool) : dlist T × dlist T :=
  if same then (dst, src)
  else ({ heap := src.heap, head := src.head, length := src.length },
        { heap := [], head := none, length := 0 })

/-- Copy loop of copy assignment (dlist.h lines 292-297): walk the source
chain, `push_back` each value into the target. -/
def dCopyLoop {T : Type} [Inhabited T] (srcHeap : List (DoubleNode T)) :
    Option Nat → Nat → dlist T → dlist T
  | none, _, acc => acc
  | some _, 0, acc => acc
  | some i, fuel + 1, acc =>
    dCopyLoop srcHeap (getN srcHeap i).next fuel (acc.push_back (getN srcHeap i).value)

/-- Copy assignment (dlist.h lines 282-299): self-assignment check, otherwise
clear the target (its old nodes are released) and append a copy of each source
value; backward references in the copy are rebuilt by `push_back` itself. -/
def dlist.copyAssign {T : Type} [Inhabited T] (dst src : dlist T) (same : Bool) : dlist T :=
  if same then dst
  else dCopyLoop src.heap src.head src.heap.length { heap := dst.heap, head := none, length := 0 }

/-- Iterator increment (dlist.h lines 313-318): `operator++` follows
`ptr->next` only after checking `ptr != nullptr` (`none` is the null raw
pointer, i.e. `end()`). -/
def dlist.iterInc {T : Type} [Inhabited T] (heap : List (DoubleNode T)) :
    Option Nat → Option Nat
  | none => none
  | some i => (getN heap i).next

/-- Chain shape predicate: starting at pointer `p`, whose pointee's backward
reference must be `pv`, the nodes along `next` are exactly `ids` and the last
one's `next` is null. -/
def ChainFrom {T : Type} [Inhabited T] (heap : List (DoubleNode T)) :
    Option Nat → Option Nat → List Nat → Prop
  | _, p, [] => p = none
  | pv, p, i :: rest =>
    p = some i ∧ i < heap.length ∧ (getN heap i).prev = pv ∧
    ChainFrom heap (some i) (getN heap i).next rest

/-- Well-formedness of a `dlist` state: `ids` lists the chain's arena ids in
order, without duplicates, the doubly-linked structure is consistent (each
node's `prev` names its predecessor, the head's is null), and the length
counter matches.  Holds for the empty list and is preserved by every
operation. -/
def dlist.Wf {T : Type} [Inhabited T] (d : dlist T) (ids : List Nat) : Prop :=
  ChainFrom d.heap none d.head ids ∧ ids.Nodup ∧ d.length = ids.length

/-- Values stored at the given arena ids. -/
def valsOf {T : Type} [Inhabited T] (heap : List (DoubleNode T)) (ids : List Nat) : List T :=
  ids.map fun i => (getN heap i).value

/-- The backward-reference invariant of the claim: along the chain reachable
from `head`, every node with a successor is named by that successor's backward
reference, and the head's backward reference is null. -/
def dlist.BackRefsOk {T : Type} [Inhabited T] (d : dlist T) : Prop :=
  (∀ n m, n ∈ dIds d.heap d.head d.heap.length → (getN d.heap n).next = some m →
    (getN d.heap m).prev = some n) ∧
  (∀ h, d.head = some h → (getN d.heap h).prev = none)

lemma getN_setN_ne {T : Type} [Inhabited T] (heap : List (DoubleNode T)) (i j : Nat)
    (n : DoubleNode T) (h : i ≠ j) : getN (setN heap i n) j = getN heap j :=
  lGetD_set_ne heap i j n default h

lemma getN_setN_self {T : Type} [Inhabited T] (heap : List (DoubleNode T)) (i : Nat)
    (n : DoubleNode T) (h : i < heap.length) : getN (setN heap i n) i = n :=
  lGetD_set_self heap i n default h

lemma setN_length {T : Type} (heap : List (DoubleNode T)) (i : Nat) (n : DoubleNode T) :
    (setN heap i n).length = heap.length := by
  simp [setN]

lemma getN_append_lt {T : Type} [Inhabited T] (heap : List (DoubleNode T)) (i : Nat)
    (n : DoubleNode T) (h : i < heap.length) : getN (heap ++ [n]) i = getN heap i :=
  lGetD_append_lt heap [n] i default h

lemma getN_append_self {T : Type} [Inhabited T] (heap : List (DoubleNode T))
    (n : DoubleNode T) : getN (heap ++ [n]) heap.length = n :=
  lGetD_append_self heap n default

lemma lGetLast?_mem {α : Type} (l : List α) (a : α) (h : l.getLast? = some a) : a ∈ l := by
  induction l with
  | nil => simp at h
  | cons x xs ih =>
    cases xs with
    | nil =>
      simp at h
      simp [h]
    | cons y ys =>
      rw [List.getLast?_cons_cons] at h
      exact List.mem_cons_of_mem x (ih h)

lemma chain_bound {T : Type} [Inhabited T] (heap : List (DoubleNode T)) (pv p : Option Nat)
    (ids : List Nat) (hc : ChainFrom heap pv p ids) : ∀ i ∈ ids, i < heap.length := by
  induction ids generalizing pv p with
  | nil => simp
  | cons a rest ih =>
    obtain ⟨hp, hb, hprev, hrest⟩ := hc
    intro i hi
    rcases List.mem_cons.mp hi with h1 | h1
    · omega
    · exact ih (some a) (getN heap a).next hrest i h1

lemma chain_congr {T : Type} [Inhabited T] (heap heap2 : List (DoubleNode T))
    (pv p : Option Nat) (ids : List Nat) (hc : ChainFrom heap pv p ids)
    (hsame : ∀ i ∈ ids, getN heap2 i = getN heap i)
    (hlen : ∀ i ∈ ids, i < heap2.length) :
    ChainFrom heap2 pv p ids := by
  induction ids generalizing pv p with
  | nil => exact hc
  | cons a rest ih =>
    obtain ⟨hp, hb, hprev, hrest⟩ := hc
    have ha := hsame a (List.mem_cons_self a rest)
    refine ⟨hp, hlen a (List.mem_cons_self a rest), by rw [ha, hprev], ?_⟩
    rw [ha]
    exact ih (some a) (getN heap a).next hrest
      (fun i hi => hsame i (List.mem_cons_of_mem a hi))
      (fun i hi => hlen i (List.mem_cons_of_mem a hi))

lemma chain_alloc {T : Type} [Inhabited T] (heap : List (DoubleNode T)) (pv p : Option Nat)
    (ids : List Nat) (n : DoubleNode T) (hc : ChainFrom heap pv p ids) :
    ChainFrom (heap ++ [n]) pv p ids := by
  have hb := chain_bound heap pv p ids hc
  exact chain_congr heap (heap ++ [n]) pv p ids hc
    (fun i hi => getN_append_lt heap i n (hb i hi))
    (fun i hi => by have := hb i hi; simp; omega)

lemma dIds_eq {T : Type} [Inhabited T] (heap : List (DoubleNode T)) (pv p : Option Nat)
    (ids : List Nat) (fuel : Nat) (hc : ChainFrom heap pv p ids)
    (hf : ids.length ≤ fuel) : dIds heap p fuel = ids := by
  induction ids generalizing pv p fuel with
  | nil =>
    rw [hc]
    cases fuel <;> rfl
  | cons a rest ih =>
    obtain ⟨hp, hb, hprev, hrest⟩ := hc
    subst hp
    cases fuel with
    | zero => simp at hf
    | succ f =>
      rw [dIds]
      rw [ih (some a) (getN heap a).next f hrest (by simp at hf; omega)]

lemma dCollect_map {T : Type} [Inhabited T] (heap : List (DoubleNode T)) (p : Option Nat)
    (fuel : Nat) :
    dCollect heap p fuel = (dIds heap p fuel).map (fun i => (getN heap i).value) := by
  induction fuel generalizing p with
  | zero => cases p <;> rfl
  | succ f ih =>
    cases p with
    | none => rfl
    | some i =>
      rw [dCollect, dIds]
      simp [ih]

lemma dlist.toList_eq {T : Type} [Inhabited T] (d : dlist T) (ids : List Nat)
    (hw : d.Wf ids) : d.toList = valsOf d.heap ids := by
  obtain ⟨hc, hnd, hln⟩ := hw
  have hb := chain_bound d.heap none d.head ids hc
  have hfuel : ids.length ≤ d.heap.length := lNodupBound ids d.heap.length hnd hb
  rw [dlist.toList, dCollect_map, dIds_eq d.heap none d.head ids d.heap.length hc hfuel]
  rfl

lemma dPrintAux_row {T : Type} [Inhabited T] [ToString T] (heap : List (DoubleNode T))
    (p : Option Nat) (fuel : Nat) :
    dPrintAux heap p fuel = rowString (dCollect heap p fuel) := by
  induction fuel generalizing p with
  | zero => cases p <;> rfl
  | succ f ih =>
    cases p with
    | none => rfl
    | some i =>
      rw [dPrintAux, dCollect, rowString, ih]

lemma dWalk_spec {T : Type} [Inhabited T] (heap : List (DoubleNode T)) (pv p : Option Nat)
    (pre : List Nat) (cur : Nat) (post : List Nat)
    (hc : ChainFrom heap pv p (pre ++ cur :: post)) :
    dWalk heap p pre.length = some cur := by
  induction pre generalizing pv p with
  | nil =>
    obtain ⟨hp, _, _, _⟩ := hc
    simpa [dWalk] using hp
  | cons a rest ih =>
    obtain ⟨hp, hb, hprev, hrest⟩ := hc
    subst hp
    rw [List.length_cons, dWalk]
    exact ih (some a) (getN heap a).next hrest

lemma dFindLast_spec {T : Type} [Inhabited T] (heap : List (DoubleNode T)) (pv : Option Nat)
    (i : Nat) (rest : List Nat) (fuel : Nat) (L : Nat)
    (hc : ChainFrom heap pv (some i) (i :: rest))
    (hf : rest.length ≤ fuel) (hL : (i :: rest).getLast? = some L) :
    dFindLast heap i fuel = L := by
  induction rest generalizing i pv fuel with
  | nil =>
    obtain ⟨_, _, _, hnone⟩ := hc
    simp at hL
    subst hL
    cases fuel with
    | zero => rfl
    | succ f =>
      rw [dFindLast, hnone]
  | cons j rest2 ih =>
    obtain ⟨_, _, _, hrest⟩ := hc
    have hnext : (getN heap i).next = some j := hrest.1
    cases fuel with
    | zero => simp at hf
    | succ f =>
      rw [dFindLast, hnext]
      rw [List.getLast?_cons_cons] at hL
      have hc2 : ChainFrom heap (some i) (some j) (j :: rest2) := by
        rw [← hnext]
        exact hrest
      have hf2 : rest2.length ≤ f := by simp at hf; omega
      exact ih (some i) j f hc2 hf2 hL

lemma chain_split {T : Type} [Inhabited T] (heap : List (DoubleNode T)) (pv p : Option Nat)
    (pre suf : List Nat) (cur : Nat)
    (hc : ChainFrom heap pv p (pre ++ suf)) (hlast : pre.getLast? = some cur) :
    ChainFrom heap (some cur) ((getN heap cur).next) suf := by
  induction pre generalizing pv p with
  | nil => simp at hlast
  | cons a rest ih =>
    obtain ⟨hp, hb, hprev, hrest⟩ := hc
    cases rest with
    | nil =>
      simp at hlast
      subst hlast
      exact hrest
    | cons b rest2 =>
      rw [List.getLast?_cons_cons] at hlast
      exact ih (some a) (getN heap a).next hrest hlast

lemma chain_retail {T : Type} [Inhabited T] (heap heap2 : List (DoubleNode T))
    (pv p : Option Nat) (pre suf suf2 : List Nat) (cur : Nat) (q : Option Nat)
    (hc : ChainFrom heap pv p (pre ++ suf))
    (hlast : pre.getLast? = some cur)
    (hnd : pre.Nodup)
    (hcur : getN heap2 cur = { getN heap cur with next := q })
    (hother : ∀ i ∈ pre, i ≠ cur → getN heap2 i = getN heap i)
    (hlen : ∀ i ∈ pre, i < heap2.length)
    (htail : ChainFrom heap2 (some cur) q suf2) :
    ChainFrom heap2 pv p (pre ++ suf2) := by
  induction pre generalizing pv p with
  | nil => simp at hlast
  | cons a rest ih =>
    obtain ⟨hp, hb, hprev, hrest⟩ := hc
    cases rest with
    | nil =>
      simp at hlast
      subst hlast
      refine ⟨hp, hlen a (List.mem_cons_self a []), ?_, ?_⟩
      · rw [hcur]
        exact hprev
      · rw [hcur]
        exact htail
    | cons b rest2 =>
      rw [List.getLast?_cons_cons] at hlast
      have hmem : cur ∈ b :: rest2 := lGetLast?_mem _ _ hlast
      have hane : a ≠ cur := by
        intro hcontra
        subst hcontra
        exact (List.nodup_cons.mp hnd).1 hmem
      have ha2 : getN heap2 a = getN heap a :=
        hother a (List.mem_cons_self a _) hane
      refine ⟨hp, hlen a (List.mem_cons_self a _), by rw [ha2, hprev], ?_⟩
      rw [ha2]
      exact ih (some a) (getN heap a).next hrest hlast (List.nodup_cons.mp hnd).2
        (fun i hi hne => hother i (List.mem_cons_of_mem a hi) hne)
        (fun i hi => hlen i (List.mem_cons_of_mem a hi))

lemma valsOf_congr {T : Type} [Inhabited T] (heap heap2 : List (DoubleNode T)) (ids : List Nat)
    (h : ∀ i ∈ ids, (getN heap2 i).value = (getN heap i).value) :
    valsOf heap2 ids = valsOf heap ids := by
  induction ids with
  | nil => rfl
  | cons a rest ih =>
    simp only [valsOf, List.map_cons]
    rw [h a (List.mem_cons_self a rest)]
    have := ih (fun i hi => h i (List.mem_cons_of_mem a hi))
    simp only [valsOf] at this
    rw [this]


lemma dlist.push_back_wf {T : Type} [Inhabited T] (d : dlist T) (v : T) (ids : List Nat)
    (hw : d.Wf ids) :
    (d.push_back v).Wf (ids ++ [d.heap.length]) ∧
    valsOf (d.push_back v).heap (ids ++ [d.heap.length]) = valsOf d.heap ids ++ [v] ∧
    (d.push_back v).heap.length = d.heap.length + 1 := by
  obtain ⟨hc, hnd, hln⟩ := hw
  have hb := chain_bound d.heap none d.head ids hc
  have hlenle : ids.length ≤ d.heap.length := lNodupBound ids d.heap.length hnd hb
  cases hhead : d.head with
  | none =>
    rw [hhead] at hc
    cases ids with
    | cons a rest => exact absurd hc.1 (by simp)
    | nil =>
      have he : d.push_back v =
          { heap := d.heap ++ [DoubleNode.mk0 v],
            head := some d.heap.length, length := d.length + 1 } := by
        simp only [dlist.push_back, hhead]
      rw [he]
      refine ⟨⟨?_, by simp, by simp [hln]⟩, ?_, by simp⟩
      · show ChainFrom (d.heap ++ [DoubleNode.mk0 v]) none (some d.heap.length) [d.heap.length]
        refine ⟨rfl, by simp, ?_, ?_⟩
        · show (getN (d.heap ++ [DoubleNode.mk0 v]) d.heap.length).prev = none
          rw [getN_append_self]
          rfl
        · show (getN (d.heap ++ [DoubleNode.mk0 v]) d.heap.length).next = none
          rw [getN_append_self]
          rfl
      · simp [valsOf, getN_append_self, DoubleNode.mk0]
  | some h =>
    rw [hhead] at hc
    cases ids with
    | nil => exact absurd hc (by simp [ChainFrom])
    | cons a rest =>
      have hha : h = a := by
        have h1 := hc.1
        injection h1
      subst hha
      have hlen2 : rest.length + 1 ≤ d.heap.length := by simpa using hlenle
      obtain ⟨L, hL⟩ : ∃ L, (h :: rest).getLast? = some L := by
        cases hg : (h :: rest).getLast? with
        | none => simp at hg
        | some L => exact ⟨L, rfl⟩
      have hLmem : L ∈ h :: rest := lGetLast?_mem _ _ hL
      have hLlt : L < d.heap.length := hb L hLmem
      have hLne : L ≠ d.heap.length := by omega
      have hc1 : ChainFrom (d.heap ++ [DoubleNode.mk0 v]) none
          (some h) (h :: rest) := chain_alloc _ _ _ _ _ hc
      have hfl : dFindLast (d.heap ++ [DoubleNode.mk0 v]) h
          ((d.heap ++ [DoubleNode.mk0 v]).length) = L := by
        refine dFindLast_spec _ none h rest _ L hc1 ?_ hL
        simp
        omega
      have hn1 : getN (d.heap ++ [DoubleNode.mk0 v]) d.heap.length = DoubleNode.mk0 v :=
        getN_append_self _ _
      have he : d.push_back v =
          { heap :=
              setN (setN (d.heap ++ [DoubleNode.mk0 v]) d.heap.length
                  { getN (d.heap ++ [DoubleNode.mk0 v]) d.heap.length with prev := some L })
                L
                { getN (setN (d.heap ++ [DoubleNode.mk0 v]) d.heap.length
                    { getN (d.heap ++ [DoubleNode.mk0 v]) d.heap.length with prev := some L })
                  L with next := some d.heap.length },
            head := d.head, length := d.length + 1 } := by
        simp only [dlist.push_back, hhead, hfl]
      rw [he, hn1]
      have hgl : getN (setN (d.heap ++ [DoubleNode.mk0 v]) d.heap.length
          { DoubleNode.mk0 v with prev := some L }) L = getN d.heap L := by
        rw [getN_setN_ne _ _ _ _ (fun hx => hLne hx.symm), getN_append_lt _ _ _ hLlt]
      rw [hgl]
      have hlenh2 : (setN (d.heap ++ [DoubleNode.mk0 v]) d.heap.length
          { DoubleNode.mk0 v with prev := some L }).length = d.heap.length + 1 := by
        rw [setN_length]
        simp
      have hnid : getN (setN (setN (d.heap ++ [DoubleNode.mk0 v]) d.heap.length
          { DoubleNode.mk0 v with prev := some L }) L
          { getN d.heap L with next := some d.heap.length }) d.heap.length
          = { DoubleNode.mk0 v with prev := some L } := by
        rw [getN_setN_ne _ _ _ _ hLne, getN_setN_self _ _ _ (by simp)]
      have hLnode : getN (setN (setN (d.heap ++ [DoubleNode.mk0 v]) d.heap.length
          { DoubleNode.mk0 v with prev := some L }) L
          { getN d.heap L with next := some d.heap.length }) L
          = { getN d.heap L with next := some d.heap.length } := by
        rw [getN_setN_self _ _ _ (by rw [hlenh2]; omega)]
      have hother : ∀ i ∈ h :: rest, i ≠ L →
          getN (setN (setN (d.heap ++ [DoubleNode.mk0 v]) d.heap.length
            { DoubleNode.mk0 v with prev := some L }) L
            { getN d.heap L with next := some d.heap.length }) i
          = getN d.heap i := by
        intro i hi hne
        have hilt : i < d.heap.length := hb i hi
        rw [getN_setN_ne _ _ _ _ (fun hx => hne hx.symm),
            getN_setN_ne _ _ _ _ (by omega), getN_append_lt _ _ _ hilt]
      have hlen3 : (setN (setN (d.heap ++ [DoubleNode.mk0 v]) d.heap.length
          { DoubleNode.mk0 v with prev := some L }) L
          { getN d.heap L with next := some d.heap.length }).length = d.heap.length + 1 := by
        rw [setN_length, hlenh2]
      refine ⟨⟨?_, ?_, ?_⟩, ?_, hlen3⟩
      · show ChainFrom _ none d.head ((h :: rest) ++ [d.heap.length])
        rw [hhead]
        refine chain_retail d.heap _ none (some h) (h :: rest) [] [d.heap.length] L
          (some d.heap.length) (by simpa using hc) hL hnd hLnode hother
          (fun i hi => by have := hb i hi; rw [hlen3]; omega) ?_
        refine ⟨rfl, by rw [hlen3]; omega, ?_, ?_⟩
        · show (getN _ d.heap.length).prev = some L
          rw [hnid]
        · show (getN _ d.heap.length).next = none
          rw [hnid]
          rfl
      · rw [List.nodup_append]
        refine ⟨hnd, List.nodup_singleton _, ?_⟩
        intro x hx hx1
        have := hb x hx
        simp at hx1
        omega
      · simp [hln]
      · rw [valsOf, List.map_append, ← valsOf, ← valsOf]
        rw [valsOf_congr d.heap _ (h :: rest) ?side]
        · congr 1
          simp only [valsOf, List.map_cons, List.map_nil]
          rw [hnid]
          rfl
        case side =>
          intro i hi
          by_cases hiL : i = L
          · subst hiL
            rw [hLnode]
          · rw [hother i hi hiL]

lemma dInsertMid_char_none {T : Type} [Inhabited T] (heap : List (DoubleNode T)) (v : T)
    (cur : Nat) (hcur : cur < heap.length) (hnext : (getN heap cur).next = none) :
    dInsertMid (heap ++ [DoubleNode.mk0 v]) heap.length cur =
      setN (setN (heap ++ [DoubleNode.mk0 v]) heap.length
          { DoubleNode.mk0 v with next := none, prev := some cur })
        cur { getN heap cur with next := some heap.length } := by
  have h1 : getN (heap ++ [DoubleNode.mk0 v]) heap.length = DoubleNode.mk0 v :=
    getN_append_self _ _
  have h2 : getN (heap ++ [DoubleNode.mk0 v]) cur = getN heap cur :=
    getN_append_lt _ _ _ hcur
  have hne : cur ≠ heap.length := by omega
  simp only [dInsertMid, h1, h2, hnext]
  have h3 : (getN (setN (heap ++ [DoubleNode.mk0 v]) heap.length
      { DoubleNode.mk0 v with next := none }) heap.length).next = none := by
    rw [getN_setN_self _ _ _ (by simp)]
  simp only [h3]
  have h4 : getN (setN (heap ++ [DoubleNode.mk0 v]) heap.length
      { DoubleNode.mk0 v with next := none }) heap.length
      = { DoubleNode.mk0 v with next := none } :=
    getN_setN_self _ _ _ (by simp)
  simp only [h4]
  have h5 : getN (setN (setN (heap ++ [DoubleNode.mk0 v]) heap.length
      { DoubleNode.mk0 v with next := none }) heap.length
      { DoubleNode.mk0 v with next := none, prev := some cur }) cur = getN heap cur := by
    rw [getN_setN_ne _ _ _ _ (fun hx => hne hx.symm),
        getN_setN_ne _ _ _ _ (fun hx => hne hx.symm), h2]
  simp only [h5]
  simp only [setN, List.set_set]

lemma dInsertMid_char_some {T : Type} [Inhabited T] (heap : List (DoubleNode T)) (v : T)
    (cur s : Nat) (hcur : cur < heap.length) (hs : s < heap.length) (hneq : s ≠ cur)
    (hnext : (getN heap cur).next = some s) :
    dInsertMid (heap ++ [DoubleNode.mk0 v]) heap.length cur =
      setN (setN (setN (setN (heap ++ [DoubleNode.mk0 v]) heap.length
            { DoubleNode.mk0 v with next := some s })
          s { getN heap s with prev := some heap.length })
        heap.length { DoubleNode.mk0 v with next := some s, prev := some cur })
        cur { getN heap cur with next := some heap.length } := by
  have h1 : getN (heap ++ [DoubleNode.mk0 v]) heap.length = DoubleNode.mk0 v :=
    getN_append_self _ _
  have h2 : getN (heap ++ [DoubleNode.mk0 v]) cur = getN heap cur :=
    getN_append_lt _ _ _ hcur
  have hcne : cur ≠ heap.length := by omega
  have hsne : s ≠ heap.length := by omega
  simp only [dInsertMid, h1, h2, hnext]
  have h3 : (getN (setN (heap ++ [DoubleNode.mk0 v]) heap.length
      { DoubleNode.mk0 v with next := some s }) heap.length).next = some s := by
    rw [getN_setN_self _ _ _ (by simp)]
  simp only [h3]
  have h4 : getN (setN (heap ++ [DoubleNode.mk0 v]) heap.length
      { DoubleNode.mk0 v with next := some s }) s = getN heap s := by
    rw [getN_setN_ne _ _ _ _ (fun hx => hsne hx.symm), getN_append_lt _ _ _ hs]
  simp only [h4]
  have h5 : getN (setN (setN (heap ++ [DoubleNode.mk0 v]) heap.length
      { DoubleNode.mk0 v with next := some s })
      s { getN heap s with prev := some heap.length }) heap.length
      = { DoubleNode.mk0 v with next := some s } := by
    rw [getN_setN_ne _ _ _ _ hsne, getN_setN_self _ _ _ (by simp)]
  simp only [h5]
  have h6 : getN (setN (setN (setN (heap ++ [DoubleNode.mk0 v]) heap.length
      { DoubleNode.mk0 v with next := some s })
      s { getN heap s with prev := some heap.length })
      heap.length { DoubleNode.mk0 v with next := some s, prev := some cur }) cur
      = getN heap cur := by
    rw [getN_setN_ne _ _ _ _ (fun hx => hcne hx.symm), getN_setN_ne _ _ _ _ hneq,
        getN_setN_ne _ _ _ _ (fun hx => hcne hx.symm), h2]
  simp only [h6]

lemma dEraseMid_char_none {T : Type} [Inhabited T] (heap : List (DoubleNode T))
    (cur victim : Nat) (hcur : cur < heap.length)
    (hvn : (getN heap victim).next = none) :
    dEraseMid heap cur victim = setN heap cur { getN heap cur with next := none } := by
  simp only [dEraseMid, hvn]
  have h1 : getN (setN heap cur { getN heap cur with next := none }) cur
      = { getN heap cur with next := none } := getN_setN_self _ _ _ hcur
  simp only [h1]

lemma dEraseMid_char_some {T : Type} [Inhabited T] (heap : List (DoubleNode T))
    (cur victim s : Nat) (hcur : cur < heap.length) (hneq : s ≠ cur)
    (hvn : (getN heap victim).next = some s) :
    dEraseMid heap cur victim =
      setN (setN heap cur { getN heap cur with next := some s })
        s { getN heap s with prev := some cur } := by
  simp only [dEraseMid, hvn]
  have h1 : getN (setN heap cur { getN heap cur with next := some s }) cur
      = { getN heap cur with next := some s } := getN_setN_self _ _ _ hcur
  simp only [h1]
  have h2 : getN (setN heap cur { getN heap cur with next := some s }) s = getN heap s :=
    getN_setN_ne _ _ _ _ (fun hx => hneq hx.symm)
  rw [h2]

lemma valsOf_append {T : Type} [Inhabited T] (heap : List (DoubleNode T)) (a b : List Nat) :
    valsOf heap (a ++ b) = valsOf heap a ++ valsOf heap b := by
  simp [valsOf]

lemma valsOf_take {T : Type} [Inhabited T] (heap : List (DoubleNode T)) (ids : List Nat)
    (n : Nat) : valsOf heap (ids.take n) = (valsOf heap ids).take n := by
  simp [valsOf, List.map_take]

lemma valsOf_drop {T : Type} [Inhabited T] (heap : List (DoubleNode T)) (ids : List Nat)
    (n : Nat) : valsOf heap (ids.drop n) = (valsOf heap ids).drop n := by
  simp [valsOf, List.map_drop]

lemma valsOf_cons {T : Type} [Inhabited T] (heap : List (DoubleNode T)) (a : Nat)
    (l : List Nat) : valsOf heap (a :: l) = (getN heap a).value :: valsOf heap l := rfl

lemma dlist.insert_wf_zero {T : Type} [Inhabited T] (d : dlist T) (v : T) (p : Int)
    (ids : List Nat) (hw : d.Wf ids) (h0 : 0 ≤ p) (h1 : p ≤ (d.length : Int)) (hz : p = 0) :
    ∃ d2, d.insert v p = .ok d2 ∧
      d2.Wf (ids.take p.toNat ++ d.heap.length :: ids.drop p.toNat) ∧
      valsOf d2.heap (ids.take p.toNat ++ d.heap.length :: ids.drop p.toNat)
        = (valsOf d.heap ids).take p.toNat ++ v :: (valsOf d.heap ids).drop p.toNat ∧
      d2.length = d.length + 1 := by
  obtain ⟨hc, hnd, hln⟩ := hw
  have hb := chain_bound d.heap none d.head ids hc
  have hchk : ¬ (p > (d.length : Int) ∨ p < 0) := by omega
  have hpn0 : p.toNat = 0 := by omega
  rw [hpn0]
  simp only [List.take_zero, List.drop_zero, List.nil_append]
  cases hhead : d.head with
  | none =>
    rw [hhead] at hc
    have hids : ids = [] := by
      cases ids with
      | nil => rfl
      | cons a r => exact absurd hc.1 (by simp)
    subst hids
    have he : d.insert v p = .ok
        { heap := d.heap ++ [DoubleNode.mk0 v],
          head := some d.heap.length, length := d.length + 1 } := by
      simp only [dlist.insert]
      rw [if_neg hchk, if_pos hz]
      simp only [hhead]
    refine ⟨_, he, ⟨?_, by simp, by simp [hln]⟩, ?_, rfl⟩
    · show ChainFrom (d.heap ++ [DoubleNode.mk0 v]) none (some d.heap.length) [d.heap.length]
      refine ⟨rfl, by simp, ?_, ?_⟩
      · show (getN (d.heap ++ [DoubleNode.mk0 v]) d.heap.length).prev = none
        rw [getN_append_self]
        rfl
      · show (getN (d.heap ++ [DoubleNode.mk0 v]) d.heap.length).next = none
        rw [getN_append_self]
        rfl
    · simp [valsOf, getN_append_self, DoubleNode.mk0]
  | some h =>
    rw [hhead] at hc
    cases ids with
    | nil => exact absurd hc (by simp [ChainFrom])
    | cons a rest =>
      have hha : h = a := by
        have h1x := hc.1
        injection h1x
      subst hha
      have hhlt : h < d.heap.length := hb h (List.mem_cons_self h rest)
      have hhne : h ≠ d.heap.length := by omega
      have hgh : getN (d.heap ++ [DoubleNode.mk0 v]) h = getN d.heap h :=
        getN_append_lt _ _ _ hhlt
      have he : d.insert v p = .ok
          { heap := setN (setN (d.heap ++ [DoubleNode.mk0 v]) h
              { getN (d.heap ++ [DoubleNode.mk0 v]) h with prev := some d.heap.length })
              d.heap.length
              { getN (setN (d.heap ++ [DoubleNode.mk0 v]) h
                  { getN (d.heap ++ [DoubleNode.mk0 v]) h with prev := some d.heap.length })
                d.heap.length with next := some h },
            head := some d.heap.length, length := d.length + 1 } := by
        simp only [dlist.insert]
        rw [if_neg hchk, if_pos hz]
        simp only [hhead]
      rw [he]
      simp only [hgh]
      have hgN : getN (setN (d.heap ++ [DoubleNode.mk0 v]) h
          { getN d.heap h with prev := some d.heap.length }) d.heap.length
          = DoubleNode.mk0 v := by
        rw [getN_setN_ne _ _ _ _ hhne, getN_append_self]
      simp only [hgN]
      have hlen2 : (setN (setN (d.heap ++ [DoubleNode.mk0 v]) h
          { getN d.heap h with prev := some d.heap.length }) d.heap.length
          { DoubleNode.mk0 v with next := some h }).length = d.heap.length + 1 := by
        rw [setN_length, setN_length]
        simp
      have hgetF_N : getN (setN (setN (d.heap ++ [DoubleNode.mk0 v]) h
          { getN d.heap h with prev := some d.heap.length }) d.heap.length
          { DoubleNode.mk0 v with next := some h }) d.heap.length
          = { DoubleNode.mk0 v with next := some h } :=
        getN_setN_self _ _ _ (by rw [setN_length]; simp)
      have hgetF_h : getN (setN (setN (d.heap ++ [DoubleNode.mk0 v]) h
          { getN d.heap h with prev := some d.heap.length }) d.heap.length
          { DoubleNode.mk0 v with next := some h }) h
          = { getN d.heap h with prev := some d.heap.length } := by
        rw [getN_setN_ne _ _ _ _ (fun hx => hhne hx.symm)]
        exact getN_setN_self _ _ _ (by simp; omega)
      have hgetF_rest : ∀ i ∈ rest,
          getN (setN (setN (d.heap ++ [DoubleNode.mk0 v]) h
            { getN d.heap h with prev := some d.heap.length }) d.heap.length
            { DoubleNode.mk0 v with next := some h }) i
          = getN d.heap i := by
        intro i hi
        have hilt : i < d.heap.length := hb i (List.mem_cons_of_mem h hi)
        have hih : i ≠ h := by
          intro hcontra
          subst hcontra
          exact (List.nodup_cons.mp hnd).1 hi
        rw [getN_setN_ne _ _ _ _ (by omega), getN_setN_ne _ _ _ _ (fun hx => hih hx.symm),
            getN_append_lt _ _ _ hilt]
      refine ⟨_, rfl, ⟨?_, ?_, ?_⟩, ?_, rfl⟩
      · refine ⟨rfl, by rw [hlen2]; omega, ?_, ?_⟩
        · show (getN _ d.heap.length).prev = none
          rw [hgetF_N]
          rfl
        · rw [hgetF_N]
          show ChainFrom _ (some d.heap.length) (some h) (h :: rest)
          refine ⟨rfl, by rw [hlen2]; omega, ?_, ?_⟩
          · show (getN _ h).prev = some d.heap.length
            rw [hgetF_h]
          · rw [hgetF_h]
            show ChainFrom _ (some h) (getN d.heap h).next rest
            refine chain_congr d.heap _ (some h) (getN d.heap h).next rest hc.2.2.2
              (fun i hi => hgetF_rest i hi)
              (fun i hi => by have := hb i (List.mem_cons_of_mem h hi); rw [hlen2]; omega)
      · rw [List.nodup_cons]
        refine ⟨?_, hnd⟩
        intro hmem
        have := hb _ hmem
        omega
      · simp [hln]
      · show valsOf _ (d.heap.length :: h :: rest) = _
        rw [show valsOf d.heap (h :: rest) = (valsOf d.heap (h :: rest)).take 0
            ++ (valsOf d.heap (h :: rest)).drop 0 by simp] at *
        simp only [valsOf, List.map_cons, List.take_zero, List.drop_zero, List.nil_append]
        rw [hgetF_N, hgetF_h]
        have hv1 : ({ DoubleNode.mk0 v with next := some h } : DoubleNode T).value = v := rfl
        have hv2 : ({ getN d.heap h with prev := some d.heap.length } : DoubleNode T).value
            = (getN d.heap h).value := rfl
        rw [hv1, hv2]
        congr 1
        congr 1
        refine List.map_congr_left (fun i hi => ?_)
        have hilt : i < d.heap.length := hb i (List.mem_cons_of_mem h hi)
        have hih : i ≠ h := fun hcontra => (List.nodup_cons.mp hnd).1 (hcontra ▸ hi)
        rw [getN_setN_ne _ _ _ _ (by omega), getN_setN_ne _ _ _ _ (fun hx => hih hx.symm),
            getN_append_lt _ _ _ hilt]

lemma dlist.insert_wf_pos {T : Type} [Inhabited T] (d : dlist T) (v : T) (p : Int)
    (ids : List Nat) (hw : d.Wf ids) (h0 : 0 ≤ p) (h1 : p ≤ (d.length : Int)) (hz : ¬ p = 0) :
    ∃ d2, d.insert v p = .ok d2 ∧
      d2.Wf (ids.take p.toNat ++ d.heap.length :: ids.drop p.toNat) ∧
      valsOf d2.heap (ids.take p.toNat ++ d.heap.length :: ids.drop p.toNat)
        = (valsOf d.heap ids).take p.toNat ++ v :: (valsOf d.heap ids).drop p.toNat ∧
      d2.length = d.length + 1 := by
  obtain ⟨hc, hnd, hln⟩ := hw
  have hb := chain_bound d.heap none d.head ids hc
  have hchk : ¬ (p > (d.length : Int) ∨ p < 0) := by omega
  have hp1 : 1 ≤ p.toNat := by omega
  have hpnle : p.toNat ≤ ids.length := by omega
  have hlt : p.toNat - 1 < ids.length := by omega
  set cur := ids.getD (p.toNat - 1) 0 with hcu
  have hgd : ids.drop (p.toNat - 1) = cur :: ids.drop p.toNat := by
    rw [lDrop_succ_getD ids (p.toNat - 1) 0 hlt, ← hcu]
    congr 2
    omega
  have hsplit : ids = ids.take (p.toNat - 1) ++ cur :: ids.drop p.toNat := by
    conv_lhs => rw [← List.take_append_drop (p.toNat - 1) ids]
    rw [hgd]
  have hcurmem : cur ∈ ids := by
    have hx : cur ∈ ids.take (p.toNat - 1) ++ cur :: ids.drop p.toNat :=
      List.mem_append_right _ (List.mem_cons_self _ _)
    rwa [← hsplit] at hx
  have hcurlt : cur < d.heap.length := hb _ hcurmem
  have hcurne : cur ≠ d.heap.length := by omega
  have hc1 : ChainFrom (d.heap ++ [DoubleNode.mk0 v]) none d.head ids :=
    chain_alloc _ _ _ _ _ hc
  have hwalk : dWalk (d.heap ++ [DoubleNode.mk0 v]) d.head (p.toNat - 1) = some cur := by
    have hc2 := hc1
    rw [hsplit] at hc2
    have hws := dWalk_spec _ none d.head (ids.take (p.toNat - 1)) cur (ids.drop p.toNat) hc2
    rwa [List.length_take, min_eq_left (by omega)] at hws
  have hpre : ids.take p.toNat = ids.take (p.toNat - 1) ++ [cur] := by
    have hts := lTake_succ_getD ids (p.toNat - 1) 0 hlt
    rw [show (p.toNat - 1) + 1 = p.toNat by omega] at hts
    rw [hts, hcu]
  have hlast : (ids.take p.toNat).getLast? = some cur := by
    rw [hpre]
    simp
  have hidsAppend : ids = ids.take p.toNat ++ ids.drop p.toNat :=
    (List.take_append_drop _ ids).symm
  have hcurT : cur ∈ ids.take p.toNat := by
    rw [hpre]
    exact List.mem_append_right _ (List.mem_singleton.mpr rfl)
  have hsuf : ChainFrom d.heap (some cur) ((getN d.heap cur).next) (ids.drop p.toNat) := by
    refine chain_split d.heap none d.head _ _ _ ?_ hlast
    rw [← hidsAppend]
    exact hc
  have hndT : (ids.take p.toNat).Nodup := List.Nodup.sublist (List.take_sublist _ ids) hnd
  have hboundT : ∀ i ∈ ids.take p.toNat, i < d.heap.length :=
    fun i hi => hb i (List.take_subset _ _ hi)
  cases hpost : ids.drop p.toNat with
  | nil =>
    have hlenpn : ids.length = p.toNat := by
      conv_lhs => rw [hidsAppend]
      rw [hpost]
      simp
      omega
    have hcn : (getN d.heap cur).next = none := by
      rw [hpost] at hsuf
      exact hsuf
    have he : d.insert v p = .ok
        { heap := dInsertMid (d.heap ++ [DoubleNode.mk0 v]) d.heap.length cur,
          head := d.head, length := d.length + 1 } := by
      simp only [dlist.insert]
      rw [if_neg hchk, if_neg hz, hwalk]
    rw [he, dInsertMid_char_none d.heap v cur hcurlt hcn]
    have hlenF : (setN (setN (d.heap ++ [DoubleNode.mk0 v]) d.heap.length
        { DoubleNode.mk0 v with next := none, prev := some cur })
        cur { getN d.heap cur with next := some d.heap.length }).length
        = d.heap.length + 1 := by
      rw [setN_length, setN_length]
      simp
    have hFcur : getN (setN (setN (d.heap ++ [DoubleNode.mk0 v]) d.heap.length
        { DoubleNode.mk0 v with next := none, prev := some cur })
        cur { getN d.heap cur with next := some d.heap.length }) cur
        = { getN d.heap cur with next := some d.heap.length } :=
      getN_setN_self _ _ _ (by rw [setN_length]; simp; omega)
    have hFN : getN (setN (setN (d.heap ++ [DoubleNode.mk0 v]) d.heap.length
        { DoubleNode.mk0 v with next := none, prev := some cur })
        cur { getN d.heap cur with next := some d.heap.length }) d.heap.length
        = { DoubleNode.mk0 v with next := none, prev := some cur } := by
      rw [getN_setN_ne _ _ _ _ hcurne, getN_setN_self _ _ _ (by simp)]
    have hFother : ∀ i ∈ ids.take p.toNat, i ≠ cur →
        getN (setN (setN (d.heap ++ [DoubleNode.mk0 v]) d.heap.length
          { DoubleNode.mk0 v with next := none, prev := some cur })
          cur { getN d.heap cur with next := some d.heap.length }) i
        = getN d.heap i := by
      intro i hi hne
      have hilt := hboundT i hi
      rw [getN_setN_ne _ _ _ _ (fun hx => hne hx.symm), getN_setN_ne _ _ _ _ (by omega),
          getN_append_lt _ _ _ hilt]
    refine ⟨_, rfl, ⟨?_, ?_, ?_⟩, ?_, rfl⟩
    · show ChainFrom _ none d.head (ids.take p.toNat ++ [d.heap.length])
      refine chain_retail d.heap _ none d.head (ids.take p.toNat) [] [d.heap.length] cur
        (some d.heap.length) ?_ hlast hndT hFcur hFother
        (fun i hi => by have := hboundT i hi; rw [hlenF]; omega) ?_
      · rw [← hpost, ← hidsAppend]
        exact hc
      · refine ⟨rfl, by rw [hlenF]; omega, ?_, ?_⟩
        · show (getN _ d.heap.length).prev = some cur
          rw [hFN]
        · show (getN _ d.heap.length).next = none
          rw [hFN]
    · rw [List.nodup_append]
      refine ⟨hndT, List.nodup_singleton _, ?_⟩
      intro x hx hx1
      have := hboundT x hx
      simp at hx1
      omega
    · show d.length + 1 = _
      simp
      omega
    · rw [valsOf_append]
      rw [valsOf_congr d.heap _ (ids.take p.toNat) ?vside]
      · rw [valsOf_take]
        congr 1
        · show valsOf _ [d.heap.length] = v :: (valsOf d.heap ids).drop p.toNat
          rw [← valsOf_drop, hpost]
          simp only [valsOf, List.map_cons, List.map_nil]
          rw [hFN]
          rfl
      case vside =>
        intro i hi
        by_cases hic : i = cur
        · subst hic
          rw [hFcur]
        · rw [hFother i hi hic]
  | cons s rest2 =>
    have hsmem : s ∈ ids := by
      have hx : s ∈ ids.take p.toNat ++ s :: rest2 :=
        List.mem_append_right _ (List.mem_cons_self _ _)
      rw [← hpost, ← hidsAppend] at hx
      exact hx
    have hslt : s < d.heap.length := hb s hsmem
    have hsneN : s ≠ d.heap.length := by omega
    have hnd2 : (ids.take p.toNat ++ s :: rest2).Nodup := by
      rw [← hpost, ← hidsAppend]
      exact hnd
    have hdisj := (List.nodup_append.mp hnd2).2.2
    have hndS := (List.nodup_append.mp hnd2).2.1
    have hscur : s ≠ cur := by
      intro hcontra
      exact hdisj hcurT (by rw [← hcontra]; exact List.mem_cons_self _ _)
    have hcn : (getN d.heap cur).next = some s := by
      rw [hpost] at hsuf
      exact hsuf.1
    have hsufT : ChainFrom d.heap (some cur) (some s) (s :: rest2) := by
      have hx := hsuf
      rw [hpost, hcn] at hx
      exact hx
    have he : d.insert v p = .ok
        { heap := dInsertMid (d.heap ++ [DoubleNode.mk0 v]) d.heap.length cur,
          head := d.head, length := d.length + 1 } := by
      simp only [dlist.insert]
      rw [if_neg hchk, if_neg hz, hwalk]
    rw [he, dInsertMid_char_some d.heap v cur s hcurlt hslt hscur hcn]
    have hlenF : (setN (setN (setN (setN (d.heap ++ [DoubleNode.mk0 v]) d.heap.length
        { DoubleNode.mk0 v with next := some s })
        s { getN d.heap s with prev := some d.heap.length })
        d.heap.length { DoubleNode.mk0 v with next := some s, prev := some cur })
        cur { getN d.heap cur with next := some d.heap.length }).length
        = d.heap.length + 1 := by
      rw [setN_length, setN_length, setN_length, setN_length]
      simp
    have hFcur : getN (setN (setN (setN (setN (d.heap ++ [DoubleNode.mk0 v]) d.heap.length
        { DoubleNode.mk0 v with next := some s })
        s { getN d.heap s with prev := some d.heap.length })
        d.heap.length { DoubleNode.mk0 v with next := some s, prev := some cur })
        cur { getN d.heap cur with next := some d.heap.length }) cur
        = { getN d.heap cur with next := some d.heap.length } :=
      getN_setN_self _ _ _ (by rw [setN_length, setN_length, setN_length]; simp; omega)
    have hFN : getN (setN (setN (setN (setN (d.heap ++ [DoubleNode.mk0 v]) d.heap.length
        { DoubleNode.mk0 v with next := some s })
        s { getN d.heap s with prev := some d.heap.length })
        d.heap.length { DoubleNode.mk0 v with next := some s, prev := some cur })
        cur { getN d.heap cur with next := some d.heap.length }) d.heap.length
        = { DoubleNode.mk0 v with next := some s, prev := some cur } := by
      rw [getN_setN_ne _ _ _ _ hcurne,
          getN_setN_self _ _ _ (by rw [setN_length, setN_length]; simp)]
    have hFs : getN (setN (setN (setN (setN (d.heap ++ [DoubleNode.mk0 v]) d.heap.length
        { DoubleNode.mk0 v with next := some s })
        s { getN d.heap s with prev := some d.heap.length })
        d.heap.length { DoubleNode.mk0 v with next := some s, prev := some cur })
        cur { getN d.heap cur with next := some d.heap.length }) s
        = { getN d.heap s with prev := some d.heap.length } := by
      rw [getN_setN_ne _ _ _ _ (fun hx => hscur hx.symm),
          getN_setN_ne _ _ _ _ (fun hx => hsneN hx.symm),
          getN_setN_self _ _ _ (by rw [setN_length]; simp; omega)]
    have hFother : ∀ i, i ∈ ids → i ≠ cur → i ≠ s →
        getN (setN (setN (setN (setN (d.heap ++ [DoubleNode.mk0 v]) d.heap.length
          { DoubleNode.mk0 v with next := some s })
          s { getN d.heap s with prev := some d.heap.length })
          d.heap.length { DoubleNode.mk0 v with next := some s, prev := some cur })
          cur { getN d.heap cur with next := some d.heap.length }) i
        = getN d.heap i := by
      intro i hi hnc hns
      have hilt := hb i hi
      rw [getN_setN_ne _ _ _ _ (fun hx => hnc hx.symm), getN_setN_ne _ _ _ _ (by omega),
          getN_setN_ne _ _ _ _ (fun hx => hns hx.symm), getN_setN_ne _ _ _ _ (by omega),
          getN_append_lt _ _ _ hilt]
    have hrestmem : ∀ i ∈ rest2, i ∈ ids := by
      intro i hi
      have hx : i ∈ ids.take p.toNat ++ s :: rest2 :=
        List.mem_append_right _ (List.mem_cons_of_mem _ hi)
      rw [← hpost, ← hidsAppend] at hx
      exact hx
    refine ⟨_, rfl, ⟨?_, ?_, ?_⟩, ?_, rfl⟩
    · show ChainFrom _ none d.head (ids.take p.toNat ++ d.heap.length :: s :: rest2)
      refine chain_retail d.heap _ none d.head (ids.take p.toNat) (s :: rest2)
        (d.heap.length :: s :: rest2) cur (some d.heap.length) ?_ hlast hndT hFcur
        (fun i hi hne => hFother i (List.take_subset _ _ hi) hne
          (fun hx => hdisj (hx ▸ hi) (List.mem_cons_self _ _))) 
        (fun i hi => by have := hboundT i hi; rw [hlenF]; omega) ?_
      · rw [← hpost, ← hidsAppend]
        exact hc
      · refine ⟨rfl, by rw [hlenF]; omega, ?_, ?_⟩
        · show (getN _ d.heap.length).prev = some cur
          rw [hFN]
        · show ChainFrom _ (some d.heap.length) (getN _ d.heap.length).next (s :: rest2)
          rw [hFN]
          show ChainFrom _ (some d.heap.length) (some s) (s :: rest2)
          refine ⟨rfl, by rw [hlenF]; omega, ?_, ?_⟩
          · show (getN _ s).prev = some d.heap.length
            rw [hFs]
          · rw [hFs]
            show ChainFrom _ (some s) (getN d.heap s).next rest2
            refine chain_congr d.heap _ (some s) (getN d.heap s).next rest2 hsufT.2.2.2
              (fun i hi => ?_) (fun i hi => by have := hb i (hrestmem i hi); rw [hlenF]; omega)
            have hins : i ≠ s := fun hx => (List.nodup_cons.mp hndS).1 (hx ▸ hi)
            have hinc : i ≠ cur := fun hx =>
              hdisj (hx ▸ hcurT) (List.mem_cons_of_mem _ hi)
            exact hFother i (hrestmem i hi) hinc hins
    · show (ids.take p.toNat ++ d.heap.length :: s :: rest2).Nodup
      rw [List.nodup_middle]
      refine List.nodup_cons.mpr ⟨?_, hnd2⟩
      intro hmem
      rcases List.mem_append.mp hmem with hx | hx
      · have := hboundT _ hx
        omega
      · rcases List.mem_cons.mp hx with hx1 | hx1
        · omega
        · have := hb _ (hrestmem _ hx1)
          omega
    · show d.length + 1 = _
      have hl1 : (ids.take p.toNat).length = p.toNat := by simp; omega
      have hl2 : ids.length = (ids.take p.toNat ++ s :: rest2).length := by
        rw [← hpost, ← hidsAppend]
      simp only [List.length_append, List.length_cons] at hl2 ⊢
      omega
    · rw [valsOf_append]
      rw [valsOf_congr d.heap _ (ids.take p.toNat) ?vside2]
      · rw [valsOf_take]
        congr 1
        rw [valsOf_cons]
        rw [valsOf_congr d.heap _ (s :: rest2) ?vtail]
        · rw [hFN, ← valsOf_drop, hpost]
          rfl
        case vtail =>
          intro i hi
          rcases List.mem_cons.mp hi with hx | hx
          · subst hx
            rw [hFs]
          · have hins : i ≠ s := fun hy => (List.nodup_cons.mp hndS).1 (hy ▸ hx)
            have hinc : i ≠ cur := fun hy => hdisj (hy ▸ hcurT) (List.mem_cons_of_mem _ hx)
            rw [hFother i (hrestmem i hx) hinc hins]
      case vside2 =>
        intro i hi
        by_cases hic : i = cur
        · subst hic
          rw [hFcur]
        · have hins : i ≠ s := fun hx => hdisj (hx ▸ hi) (List.mem_cons_self _ _)
          rw [hFother i (List.take_subset _ _ hi) hic hins]

lemma dlist.erase_wf {T : Type} [Inhabited T] (d : dlist T) (p : Int) (ids : List Nat)
    (hw : d.Wf ids) (h0 : 0 ≤ p) (h1 : p < (d.length : Int)) :
    ∃ d2, d.erase p = .ok d2 ∧
      d2.Wf (ids.take p.toNat ++ ids.drop (p.toNat + 1)) ∧
      valsOf d2.heap (ids.take p.toNat ++ ids.drop (p.toNat + 1))
        = (valsOf d.heap ids).take p.toNat ++ (valsOf d.heap ids).drop (p.toNat + 1) ∧
      d2.length = d.length - 1 := by
  obtain ⟨hc, hnd, hln⟩ := hw
  have hb := chain_bound d.heap none d.head ids hc
  have hchk : ¬ (p ≥ (d.length : Int) ∨ p < 0) := by omega
  have hlen1 : 1 ≤ ids.length := by omega
  by_cases hz : p = 0
  · have hpn0 : p.toNat = 0 := by omega
    rw [hpn0]
    simp only [List.take_zero, List.nil_append, Nat.zero_add]
    cases ids with
    | nil => simp at hlen1
    | cons a rest =>
      have hhead : d.head = some a := hc.1
      have halt : a < d.heap.length := hb a (List.mem_cons_self a rest)
      cases rest with
      | nil =>
        have hnext : (getN d.heap a).next = none := hc.2.2.2
        have he : d.erase p = .ok { heap := d.heap, head := none, length := d.length - 1 } := by
          simp only [dlist.erase]
          rw [if_neg hchk, if_pos hz]
          simp only [hhead, hnext]
        refine ⟨_, he, ⟨rfl, by simp, by simp [hln]⟩, by simp [valsOf], rfl⟩
      | cons nh rest2 =>
        have hnext : (getN d.heap a).next = some nh := hc.2.2.2.1
        have hnhlt : nh < d.heap.length := hb nh (by simp)
        have hanh : a ≠ nh := by
          intro hcontra
          exact (List.nodup_cons.mp hnd).1 (by rw [hcontra]; simp)
        have he : d.erase p = .ok
            { heap := setN d.heap nh { getN d.heap nh with prev := none },
              head := some nh, length := d.length - 1 } := by
          simp only [dlist.erase]
          rw [if_neg hchk, if_pos hz]
          simp only [hhead, hnext]
        refine ⟨_, he, ⟨?_, ?_, ?_⟩, ?_, rfl⟩
        · show ChainFrom _ none (some nh) (nh :: rest2)
          refine ⟨rfl, by rw [setN_length]; omega, ?_, ?_⟩
          · show (getN _ nh).prev = none
            rw [getN_setN_self _ _ _ hnhlt]
          · rw [getN_setN_self _ _ _ hnhlt]
            show ChainFrom _ (some nh) (getN d.heap nh).next rest2
            have htail : ChainFrom d.heap (some nh) (getN d.heap nh).next rest2 :=
              hc.2.2.2.2.2.2
            refine chain_congr d.heap _ (some nh) (getN d.heap nh).next rest2 htail
              (fun i hi => ?_) (fun i hi => by
                have := hb i (List.mem_cons_of_mem a (List.mem_cons_of_mem nh hi))
                rw [setN_length]; omega)
            have hinh : i ≠ nh := fun hx =>
              (List.nodup_cons.mp (List.nodup_cons.mp hnd).2).1 (hx ▸ hi)
            exact getN_setN_ne _ _ _ _ (fun hx => hinh hx.symm)
        · exact (List.nodup_cons.mp hnd).2
        · simp at hln
          simp
          omega
        · simp only [List.drop_succ_cons, List.drop_zero]
          rw [valsOf_congr d.heap _ (nh :: rest2) ?eside]
          · rw [← valsOf_drop]
            rfl
          case eside =>
            intro i hi
            rcases List.mem_cons.mp hi with hx | hx
            · subst hx
              rw [getN_setN_self _ _ _ hnhlt]
            · have hinh : i ≠ nh := fun hy =>
                (List.nodup_cons.mp (List.nodup_cons.mp hnd).2).1 (hy ▸ hx)
              rw [getN_setN_ne _ _ _ _ (fun hy => hinh hy.symm)]
  · have hp1 : 1 ≤ p.toNat := by omega
    have hpnlt : p.toNat < ids.length := by omega
    have hlt : p.toNat - 1 < ids.length := by omega
    set cur := ids.getD (p.toNat - 1) 0 with hcu
    have hgd : ids.drop (p.toNat - 1) = cur :: ids.drop p.toNat := by
      rw [lDrop_succ_getD ids (p.toNat - 1) 0 hlt, ← hcu]
      congr 2
      omega
    have hsplit : ids = ids.take (p.toNat - 1) ++ cur :: ids.drop p.toNat := by
      conv_lhs => rw [← List.take_append_drop (p.toNat - 1) ids]
      rw [hgd]
    have hcurmem : cur ∈ ids := by
      have hx : cur ∈ ids.take (p.toNat - 1) ++ cur :: ids.drop p.toNat :=
        List.mem_append_right _ (List.mem_cons_self _ _)
      rwa [← hsplit] at hx
    have hcurlt : cur < d.heap.length := hb _ hcurmem
    have hwalk : dWalk d.heap d.head (p.toNat - 1) = some cur := by
      have hc2 := hc
      rw [hsplit] at hc2
      have hws := dWalk_spec _ none d.head (ids.take (p.toNat - 1)) cur (ids.drop p.toNat) hc2
      rwa [List.length_take, min_eq_left (by omega)] at hws
    have hpre : ids.take p.toNat = ids.take (p.toNat - 1) ++ [cur] := by
      have hts := lTake_succ_getD ids (p.toNat - 1) 0 hlt
      rw [show (p.toNat - 1) + 1 = p.toNat by omega] at hts
      rw [hts, hcu]
    have hlast : (ids.take p.toNat).getLast? = some cur := by
      rw [hpre]
      simp
    have hidsAppend : ids = ids.take p.toNat ++ ids.drop p.toNat :=
      (List.take_append_drop _ ids).symm
    have hcurT : cur ∈ ids.take p.toNat := by
      rw [hpre]
      exact List.mem_append_right _ (List.mem_singleton.mpr rfl)
    have hsuf : ChainFrom d.heap (some cur) ((getN d.heap cur).next) (ids.drop p.toNat) := by
      refine chain_split d.heap none d.head _ _ _ ?_ hlast
      rw [← hidsAppend]
      exact hc
    have hndT : (ids.take p.toNat).Nodup := List.Nodup.sublist (List.take_sublist _ ids) hnd
    have hboundT : ∀ i ∈ ids.take p.toNat, i < d.heap.length :=
      fun i hi => hb i (List.take_subset _ _ hi)
    have hdropne : ids.drop p.toNat ≠ [] := by
      intro hcontra
      have := congrArg List.length hcontra
      simp at this
      omega
    cases hpost : ids.drop p.toNat with
    | nil => exact absurd hpost hdropne
    | cons victim post =>
      have hnd2 : (ids.take p.toNat ++ victim :: post).Nodup := by
        rw [← hpost, ← hidsAppend]
        exact hnd
      have hdisj := (List.nodup_append.mp hnd2).2.2
      have hndV := (List.nodup_append.mp hnd2).2.1
      have hvmem : victim ∈ ids := by
        have hx : victim ∈ ids.take p.toNat ++ victim :: post :=
          List.mem_append_right _ (List.mem_cons_self _ _)
        rw [← hpost, ← hidsAppend] at hx
        exact hx
      have hvlt : victim < d.heap.length := hb victim hvmem
      have hcn : (getN d.heap cur).next = some victim := by
        rw [hpost] at hsuf
        exact hsuf.1
      have hsufV : ChainFrom d.heap (some victim) ((getN d.heap victim).next) post := by
        have hx := hsuf
        rw [hpost, hcn] at hx
        exact hx.2.2.2
      have hdrop1 : ids.drop (p.toNat + 1) = post := by
        have hdd : ids.drop (p.toNat + 1) = List.drop 1 (ids.drop p.toNat) := by
          rw [List.drop_drop]
        rw [hdd, hpost]
        rfl
      have hmempost : ∀ i ∈ post, i ∈ ids := by
        intro i hi
        have hx : i ∈ ids.take p.toNat ++ victim :: post :=
          List.mem_append_right _ (List.mem_cons_of_mem _ hi)
        rw [← hpost, ← hidsAppend] at hx
        exact hx
      rw [hdrop1]
      cases hpostc : post with
      | nil =>
        have hvn : (getN d.heap victim).next = none := by
          rw [hpostc] at hsufV
          exact hsufV
        have he : d.erase p = .ok
            { heap := dEraseMid d.heap cur victim, head := d.head,
              length := d.length - 1 } := by
          simp only [dlist.erase]
          rw [if_neg hchk, if_neg hz, hwalk]
          simp only [hcn]
        rw [he, dEraseMid_char_none d.heap cur victim hcurlt hvn]
        have hFcur : getN (setN d.heap cur { getN d.heap cur with next := none }) cur
            = { getN d.heap cur with next := none } := getN_setN_self _ _ _ hcurlt
        have hFother : ∀ i ∈ ids.take p.toNat, i ≠ cur →
            getN (setN d.heap cur { getN d.heap cur with next := none }) i
            = getN d.heap i := by
          intro i hi hne
          exact getN_setN_ne _ _ _ _ (fun hx => hne hx.symm)
        refine ⟨_, rfl, ⟨?_, ?_, ?_⟩, ?_, rfl⟩
        · show ChainFrom _ none d.head (ids.take p.toNat ++ [])
          refine chain_retail d.heap _ none d.head (ids.take p.toNat) (victim :: [])
            [] cur none ?_ hlast hndT hFcur hFother
            (fun i hi => by have := hboundT i hi; rw [setN_length]; omega) rfl
          rw [← hpostc, ← hpost, ← hidsAppend]
          exact hc
        · simpa using hndT
        · have hle : ids.length = p.toNat + 1 := by
            have hx := congrArg List.length hidsAppend
            rw [hpost, hpostc] at hx
            simp at hx
            omega
          simp
          omega
        · rw [List.append_nil, valsOf_congr d.heap _ (ids.take p.toNat) ?nside]
          · rw [valsOf_take]
            have hvd : (valsOf d.heap ids).drop (p.toNat + 1) = [] := by
              rw [← valsOf_drop, hdrop1, hpostc]
              rfl
            rw [hvd, List.append_nil]
          case nside =>
            intro i hi
            by_cases hic : i = cur
            · subst hic
              rw [hFcur]
            · rw [hFother i hi hic]
      | cons s rest2 =>
        have hvn : (getN d.heap victim).next = some s := by
          rw [hpostc] at hsufV
          exact hsufV.1
        have hsmem : s ∈ ids := hmempost s (by rw [hpostc]; simp)
        have hslt : s < d.heap.length := hb s hsmem
        have hscur : s ≠ cur := by
          intro hcontra
          exact hdisj (hcontra ▸ hcurT)
            (by rw [hpostc]; exact List.mem_cons_of_mem _ (List.mem_cons_self _ _))
        have he : d.erase p = .ok
            { heap := dEraseMid d.heap cur victim, head := d.head,
              length := d.length - 1 } := by
          simp only [dlist.erase]
          rw [if_neg hchk, if_neg hz, hwalk]
          simp only [hcn]
        rw [he, dEraseMid_char_some d.heap cur victim s hcurlt hscur hvn]
        have hFcur : getN (setN (setN d.heap cur { getN d.heap cur with next := some s })
            s { getN d.heap s with prev := some cur }) cur
            = { getN d.heap cur with next := some s } := by
          rw [getN_setN_ne _ _ _ _ hscur, getN_setN_self _ _ _ hcurlt]
        have hFs : getN (setN (setN d.heap cur { getN d.heap cur with next := some s })
            s { getN d.heap s with prev := some cur }) s
            = { getN d.heap s with prev := some cur } :=
          getN_setN_self _ _ _ (by rw [setN_length]; omega)
        have hFother : ∀ i, i ∈ ids → i ≠ cur → i ≠ s →
            getN (setN (setN d.heap cur { getN d.heap cur with next := some s })
              s { getN d.heap s with prev := some cur }) i
            = getN d.heap i := by
          intro i hi hnc hns
          rw [getN_setN_ne _ _ _ _ (fun hx => hns hx.symm),
              getN_setN_ne _ _ _ _ (fun hx => hnc hx.symm)]
        have hsufS : ChainFrom d.heap (some victim) (some s) (s :: rest2) := by
          have hx := hsufV
          rw [hpostc, hvn] at hx
          exact hx
        have hspost : s ∉ rest2 := (List.nodup_cons.mp
          (by rw [hpostc] at hndV; exact (List.nodup_cons.mp hndV).2)).1
        have hmemrest : ∀ i ∈ rest2, i ∈ ids := by
          intro i hi
          exact hmempost i (by rw [hpostc]; exact List.mem_cons_of_mem _ hi)
        refine ⟨_, rfl, ⟨?_, ?_, ?_⟩, ?_, rfl⟩
        · show ChainFrom _ none d.head (ids.take p.toNat ++ s :: rest2)
          refine chain_retail d.heap _ none d.head (ids.take p.toNat)
            (victim :: s :: rest2) (s :: rest2) cur (some s) ?_ hlast hndT hFcur
            (fun i hi hne => hFother i (List.take_subset _ _ hi) hne
              (fun hx => hdisj (hx ▸ hi)
                (by rw [hpostc]; exact List.mem_cons_of_mem _ (List.mem_cons_self _ _)))) 
            (fun i hi => by have := hboundT i hi; rw [setN_length, setN_length]; omega) ?_
          · rw [← hpostc, ← hpost, ← hidsAppend]
            exact hc
          · refine ⟨rfl, by rw [setN_length, setN_length]; omega, ?_, ?_⟩
            · show (getN _ s).prev = some cur
              rw [hFs]
            · rw [hFs]
              show ChainFrom _ (some s) (getN d.heap s).next rest2
              refine chain_congr d.heap _ (some s) (getN d.heap s).next rest2 hsufS.2.2.2
                (fun i hi => ?_) (fun i hi => by
                  have := hb i (hmemrest i hi)
                  rw [setN_length, setN_length]; omega)
              have hins : i ≠ s := fun hx => hspost (hx ▸ hi)
              have hinc : i ≠ cur := fun hx =>
                hdisj (hx ▸ hcurT) (by rw [hpostc]
                                       exact List.mem_cons_of_mem _ (List.mem_cons_of_mem _ hi))
              exact hFother i (hmemrest i hi) hinc hins
        · refine List.Nodup.sublist ?_ hnd2
          exact List.Sublist.append_left (by rw [hpostc]; exact List.sublist_cons_self _ _) _
        · have hle : ids.length = p.toNat + 2 + rest2.length := by
            have hx := congrArg List.length hidsAppend
            rw [hpost, hpostc] at hx
            simp at hx
            omega
          simp
          omega
        · rw [valsOf_append, valsOf_congr d.heap _ (ids.take p.toNat) ?sside]
          · rw [valsOf_take]
            congr 1
            rw [valsOf_congr d.heap _ (s :: rest2) ?tside]
            · rw [← valsOf_drop, hdrop1, hpostc]
            case tside =>
              intro i hi
              rcases List.mem_cons.mp hi with hx | hx
              · subst hx
                rw [hFs]
              · have hins : i ≠ s := fun hy => hspost (hy ▸ hx)
                have hinc : i ≠ cur := fun hy =>
                  hdisj (hy ▸ hcurT) (by rw [hpostc]
                                         exact List.mem_cons_of_mem _ (List.mem_cons_of_mem _ hx))
                rw [hFother i (hmemrest i hx) hinc hins]
          case sside =>
            intro i hi
            by_cases hic : i = cur
            · subst hic
              rw [hFcur]
            · have hins : i ≠ s := fun hx => hdisj (hx ▸ hi)
                (by rw [hpostc]; exact List.mem_cons_of_mem _ (List.mem_cons_self _ _))
              rw [hFother i (List.take_subset _ _ hi) hic hins]

lemma dlist.mkEmpty_wf {T : Type} [Inhabited T] : (dlist.mkEmpty T).Wf [] :=
  ⟨rfl, List.nodup_nil, rfl⟩

lemma dlist.mkEmpty_collect {T : Type} [Inhabited T] : (dlist.mkEmpty T).toList = [] := rfl

lemma dCopyLoop_wf {T : Type} [Inhabited T] (srcHeap : List (DoubleNode T)) (p : Option Nat)
    (fuel : Nat) (acc : dlist T) (ids : List Nat) (hw : acc.Wf ids) :
    ∃ ids2, (dCopyLoop srcHeap p fuel acc).Wf ids2 ∧
      valsOf (dCopyLoop srcHeap p fuel acc).heap ids2
        = valsOf acc.heap ids ++ dCollect srcHeap p fuel := by
  induction fuel generalizing p acc ids with
  | zero =>
    cases p with
    | none => exact ⟨ids, hw, by simp [dCopyLoop, dCollect]⟩
    | some i => exact ⟨ids, hw, by simp [dCopyLoop, dCollect]⟩
  | succ f ih =>
    cases p with
    | none => exact ⟨ids, hw, by simp [dCopyLoop, dCollect]⟩
    | some i =>
      obtain ⟨hw2, hv2, _⟩ := dlist.push_back_wf acc (getN srcHeap i).value ids hw
      obtain ⟨ids3, hw3, hv3⟩ := ih (getN srcHeap i).next (acc.push_back (getN srcHeap i).value)
        (ids ++ [acc.heap.length]) hw2
      refine ⟨ids3, hw3, ?_⟩
      rw [dCopyLoop, hv3, hv2, dCollect]
      simp

lemma dlist.copyAssign_wf {T : Type} [Inhabited T] (dst src : dlist T) :
    ∃ ids2, (dst.copyAssign src false).Wf ids2 ∧
      (dst.copyAssign src false).toList = src.toList := by
  have hcleared : (⟨dst.heap, none, 0⟩ : dlist T).Wf [] := ⟨rfl, List.nodup_nil, rfl⟩
  obtain ⟨ids2, hw2, hv2⟩ :=
    dCopyLoop_wf src.heap src.head src.heap.length ⟨dst.heap, none, 0⟩ [] hcleared
  have he : dst.copyAssign src false
      = dCopyLoop src.heap src.head src.heap.length ⟨dst.heap, none, 0⟩ := rfl
  refine ⟨ids2, ?_, ?_⟩
  · rw [he]
    exact hw2
  · rw [he, dlist.toList_eq _ ids2 hw2, hv2]
    show valsOf dst.heap [] ++ _ = _
    rw [dlist.toList]
    simp [valsOf]

lemma dlist.foldl_wf {T : Type} [Inhabited T] (S : List T) (d : dlist T) (ids : List Nat)
    (hw : d.Wf ids) :
    ∃ ids2, (S.foldl dlist.push_back d).Wf ids2 ∧
      valsOf (S.foldl dlist.push_back d).heap ids2 = valsOf d.heap ids ++ S := by
  induction S generalizing d ids with
  | nil => exact ⟨ids, hw, by simp⟩
  | cons x rest ih =>
    obtain ⟨hw2, hv2, _⟩ := dlist.push_back_wf d x ids hw
    obtain ⟨ids3, hw3, hv3⟩ := ih (d.push_back x) (ids ++ [d.heap.length]) hw2
    refine ⟨ids3, hw3, ?_⟩
    rw [List.foldl_cons, hv3, hv2]
    simp

lemma valsOf_getD {T : Type} [Inhabited T] (heap : List (DoubleNode T)) (ids : List Nat)
    (k : Nat) (h : k < ids.length) :
    (valsOf heap ids).getD k default = (getN heap (ids.getD k 0)).value := by
  induction ids generalizing k with
  | nil => simp at h
  | cons a rest ih =>
    cases k with
    | zero => rfl
    | succ m =>
      have := ih m (by simpa using h)
      simpa [valsOf] using this

lemma dlist.get_value {T : Type} [Inhabited T] (d : dlist T) (i : Int) (ids : List Nat)
    (hw : d.Wf ids) (h0 : 0 ≤ i) (h1 : i < (d.length : Int)) :
    d.get i = .ok (d.toList.getD i.toNat default) := by
  obtain ⟨hc, hnd, hln⟩ := hw
  have hchk : ¬ (i < 0 ∨ i ≥ (d.length : Int)) := by omega
  have hlt : i.toNat < ids.length := by omega
  have hsplit : ids = ids.take i.toNat ++ ids.getD i.toNat 0 :: ids.drop (i.toNat + 1) := by
    conv_lhs => rw [← List.take_append_drop i.toNat ids]
    rw [lDrop_succ_getD ids i.toNat 0 hlt]
  have hwalk : dWalk d.heap d.head i.toNat = some (ids.getD i.toNat 0) := by
    have hc2 := hc
    rw [hsplit] at hc2
    have hws := dWalk_spec _ none d.head (ids.take i.toNat) _ _ hc2
    rwa [List.length_take, min_eq_left (by omega)] at hws
  simp only [dlist.get]
  rw [if_neg hchk, hwalk]
  rw [dlist.toList_eq d ids ⟨hc, hnd, hln⟩, valsOf_getD d.heap ids i.toNat hlt]

lemma chain_back {T : Type} [Inhabited T] (heap : List (DoubleNode T)) (pv p : Option Nat)
    (ids : List Nat) (hc : ChainFrom heap pv p ids) :
    ∀ n m, n ∈ ids → (getN heap n).next = some m → (getN heap m).prev = some n := by
  induction ids generalizing pv p with
  | nil =>
    intro n m hmem
    simp at hmem
  | cons a rest ih =>
    obtain ⟨hp, hb2, hprev, hrest⟩ := hc
    intro n m hmem hnext
    rcases List.mem_cons.mp hmem with hx | hx
    · subst hx
      cases rest with
      | nil =>
        have hnone : (getN heap n).next = none := hrest
        rw [hnone] at hnext
        exact absurd hnext (by simp)
      | cons b rest2 =>
        have hnb : (getN heap n).next = some b := hrest.1
        have hmb : m = b := by
          rw [hnext] at hnb
          injection hnb
        subst hmb
        exact hrest.2.2.1
    · exact ih (some a) (getN heap a).next hrest n m hx hnext

lemma dlist.wf_backRefsOk {T : Type} [Inhabited T] (d : dlist T) (ids : List Nat)
    (hw : d.Wf ids) : d.BackRefsOk := by
  obtain ⟨hc, hnd, hln⟩ := hw
  have hb := chain_bound d.heap none d.head ids hc
  have hfuel : ids.length ≤ d.heap.length := lNodupBound ids d.heap.length hnd hb
  have hidseq : dIds d.heap d.head d.heap.length = ids :=
    dIds_eq d.heap none d.head ids d.heap.length hc hfuel
  constructor
  · intro n m hmem hnext
    rw [hidseq] at hmem
    exact chain_back d.heap none d.head ids hc n m hmem hnext
  · intro h hh
    cases ids with
    | nil =>
      rw [hc] at hh
      exact absurd hh (by simp)
    | cons a rest =>
      have hha : h = a := by
        have hx := hc.1
        rw [hh] at hx
        injection hx
      subst hha
      exact hc.2.2.1

lemma dlist.insert_wf {T : Type} [Inhabited T] (d : dlist T) (v : T) (p : Int)
    (ids : List Nat) (hw : d.Wf ids) (h0 : 0 ≤ p) (h1 : p ≤ (d.length : Int)) :
    ∃ d2, d.insert v p = .ok d2 ∧
      d2.Wf (ids.take p.toNat ++ d.heap.length :: ids.drop p.toNat) ∧
      valsOf d2.heap (ids.take p.toNat ++ d.heap.length :: ids.drop p.toNat)
        = (valsOf d.heap ids).take p.toNat ++ v :: (valsOf d.heap ids).drop p.toNat ∧
      d2.length = d.length + 1 := by
  by_cases hz : p = 0
  · exact dlist.insert_wf_zero d v p ids hw h0 h1 hz
  · exact dlist.insert_wf_pos d v p ids hw h0 h1 hz

lemma shiftRightCells_self {T : Type} [Inhabited T] (p : Nat) (data : List T) :
    shiftRightCells p data p = data := by
  cases p with
  | zero => rfl
  | succ m => rw [shiftRightCells, if_neg (by omega)]

/-! Theorems for the specification claims. -/

/-- C1: in `DoublyChain`, for every reachable node `n` with a successor `m`
(`n.next = m`), `m`'s backward reference resolves to `n`, and the head's
backward reference is null; this invariant (`BackRefsOk`, including as special
cases the cleared backward reference of a new head after erasing position 0
and the re-pointed backward reference of the successor after an interior
erase) is preserved by append, insert at any accepted position, erase at any
accepted position, and copy assignment. -/
theorem c1_dlist_backrefs {T : Type} [Inhabited T] :
    (∀ (d : dlist T) (ids : List Nat) (v : T), d.Wf ids → (d.push_back v).BackRefsOk) ∧
    (∀ (d : dlist T) (ids : List Nat) (v : T) (p : Int) (d2 : dlist T), d.Wf ids →
      d.insert v p = .ok d2 → d2.BackRefsOk) ∧
    (∀ (d : dlist T) (ids : List Nat) (p : Int) (d2 : dlist T), d.Wf ids →
      d.erase p = .ok d2 → d2.BackRefsOk) ∧
    (∀ dst src : dlist T, (dst.copyAssign src false).BackRefsOk) := by
  refine ⟨?_, ?_, ?_, ?_⟩
  · intro d ids v hw
    exact dlist.wf_backRefsOk _ _ (dlist.push_back_wf d v ids hw).1
  · intro d ids v p d2 hw he
    by_cases hok : 0 ≤ p ∧ p ≤ (d.length : Int)
    · obtain ⟨d2x, hex, hwx, _, _⟩ := dlist.insert_wf d v p ids hw hok.1 hok.2
      rw [hex] at he
      injection he with he2
      rw [← he2]
      exact dlist.wf_backRefsOk _ _ hwx
    · exfalso
      have hbad : p > (d.length : Int) ∨ p < 0 := by omega
      rw [dlist.insert, if_pos hbad] at he
      exact absurd he (by simp)
  · intro d ids p d2 hw he
    by_cases hok : 0 ≤ p ∧ p < (d.length : Int)
    · obtain ⟨d2x, hex, hwx, _, _⟩ := dlist.erase_wf d p ids hw hok.1 hok.2
      rw [hex] at he
      injection he with he2
      rw [← he2]
      exact dlist.wf_backRefsOk _ _ hwx
    · exfalso
      have hbad : p ≥ (d.length : Int) ∨ p < 0 := by omega
      rw [dlist.erase, if_pos hbad] at he
      exact absurd he (by simp)
  · intro dst src
    obtain ⟨ids2, hw2, _⟩ := dlist.copyAssign_wf dst src
    exact dlist.wf_backRefsOk _ _ hw2

/-- Witness for C1 at a concrete input: the empty list is well-formed and
appending keeps the backward references consistent. -/
theorem c1_dlist_backrefs_witness :
    (dlist.mkEmpty Int).Wf [] ∧ ((dlist.mkEmpty Int).push_back 5).BackRefsOk :=
  ⟨dlist.mkEmpty_wf,
   (c1_dlist_backrefs (T := Int)).1 (dlist.mkEmpty Int) [] 5 dlist.mkEmpty_wf⟩

/-- C3 names the growth policy of `DynamicArray::append`: capacity is claimed
to double, or to become 1 when it is currently 0.  The code (`myvector.h` line
21, `capacity *= 2`) leaves a zero capacity at zero: appending to a moved-from
vector (the state the move operations leave behind, capacity 0 and no buffer)
keeps `capacity = 0` and the stored value is lost in an out-of-bounds write —
the evaluation below shows capacity 0, not 1, after the append. -/
theorem c3_capacity_zero_stays_zero :
    ((myvector.mkEmpty Int).moveCtor.2.capacity = 0) ∧
    (((myvector.mkEmpty Int).moveCtor.2.push_back 5).capacity = 0) ∧
    (((myvector.mkEmpty Int).moveCtor.2.push_back 5).length = 1) ∧
    (((myvector.mkEmpty Int).moveCtor.2.push_back 5).data = []) := by
  refine ⟨rfl, rfl, rfl, rfl⟩

/-- C4: for all three containers, after move construction or move assignment
the target's element sequence is the source's pre-move sequence and the source
is left empty (`size() = 0`, null buffer/head; for `DynamicArray` also
capacity 0). -/
theorem c4_move_semantics {T : Type} [Inhabited T] :
    (∀ v : myvector T, v.moveCtor.1.toList = v.toList ∧ v.moveCtor.2.length = 0 ∧
      v.moveCtor.2.capacity = 0 ∧ v.moveCtor.2.toList = []) ∧
    (∀ dst v : myvector T, (dst.moveAssign v false).1.toList = v.toList ∧
      (dst.moveAssign v false).2.length = 0 ∧ (dst.moveAssign v false).2.capacity = 0 ∧
      (dst.moveAssign v false).2.toList = []) ∧
    (∀ s : slist T, s.moveCtor.1.toList = s.toList ∧ s.moveCtor.2.length = 0 ∧
      s.moveCtor.2.toList = []) ∧
    (∀ dst s : slist T, (dst.moveAssign s false).1.toList = s.toList ∧
      (dst.moveAssign s false).2.length = 0 ∧ (dst.moveAssign s false).2.toList = []) ∧
    (∀ d : dlist T, d.moveCtor.1.toList = d.toList ∧ d.moveCtor.2.length = 0 ∧
      d.moveCtor.2.toList = []) ∧
    (∀ dst d : dlist T, (dst.moveAssign d false).1.toList = d.toList ∧
      (dst.moveAssign d false).2.length = 0 ∧ (dst.moveAssign d false).2.toList = []) := by
  exact ⟨fun v => ⟨rfl, rfl, rfl, rfl⟩, fun dst v => ⟨rfl, rfl, rfl, rfl⟩,
    fun s => ⟨rfl, rfl, rfl⟩, fun dst s => ⟨rfl, rfl, rfl⟩,
    fun d => ⟨rfl, rfl, rfl⟩, fun dst d => ⟨rfl, rfl, rfl⟩⟩

/-- C9: self-assignment is detected (`this == &other`, the `same` flag) and is
a no-op for copy and move assignment of all three containers. -/
theorem c9_self_assign {T : Type} [Inhabited T] :
    (∀ v : myvector T, v.copyAssign v true = v ∧ v.moveAssign v true = (v, v)) ∧
    (∀ s : slist T, s.copyAssign s true = s ∧ s.moveAssign s true = (s, s)) ∧
    (∀ d : dlist T, d.copyAssign d true = d ∧ d.moveAssign d true = (d, d)) :=
  ⟨fun _ => ⟨rfl, rfl⟩, fun _ => ⟨rfl, rfl⟩, fun _ => ⟨rfl, rfl⟩⟩

/-- C10: for `SinglyChain` and `DoublyChain`, `operator++` checks the raw node
pointer for null before following `next`, so incrementing an iterator that is
already at `end()` (null) is safe and any number of further increments leaves
it equal to `end()`. -/
theorem c10_iterator_end_safe {T : Type} [Inhabited T] :
    (slist.iterInc ([] : List T) = [] ∧ ∀ n : Nat, slist.iterInc^[n] ([] : List T) = []) ∧
    (∀ heap : List (DoubleNode T), dlist.iterInc heap none = none ∧
      ∀ n : Nat, (dlist.iterInc heap)^[n] none = none) := by
  constructor
  · refine ⟨rfl, ?_⟩
    intro n
    induction n with
    | zero => rfl
    | succ m ih => rw [Function.iterate_succ_apply, show slist.iterInc ([] : List T) = [] from rfl, ih]
  · intro heap
    refine ⟨rfl, ?_⟩
    intro n
    induction n with
    | zero => rfl
    | succ m ih =>
      rw [Function.iterate_succ_apply, show dlist.iterInc heap none = none from rfl, ih]

/-- C2: for all three containers, any call with a position or index outside
the documented range — in particular `erase(size())`, `erase(-1)`,
`at(size())`, `insert(x, size()+1)` — fails with `IndexOutOfRange` and leaves
the container exactly as it was (`afterSt` is the object state after the
call): each operation checks bounds before performing any mutation. -/
theorem c2_out_of_range {T : Type} [Inhabited T] :
    ((∀ (v : myvector T) (x : T) (p : Int), (p < 0 ∨ p > (v.length : Int)) →
        v.insert x p = .error .indexOutOfRange ∧ afterSt v (v.insert x p) = v) ∧
      (∀ (v : myvector T) (p : Int), (p < 0 ∨ p ≥ (v.length : Int)) →
        v.erase p = .error .indexOutOfRange ∧ afterSt v (v.erase p) = v) ∧
      (∀ (v : myvector T) (i : Int), (i < 0 ∨ i ≥ (v.length : Int)) →
        v.get i = .error .indexOutOfRange)) ∧
    ((∀ (s : slist T) (x : T) (p : Int), (p < 0 ∨ p > (s.length : Int)) →
        s.insert x p = .error .indexOutOfRange ∧ afterSt s (s.insert x p) = s) ∧
      (∀ (s : slist T) (p : Int), (p < 0 ∨ p ≥ (s.length : Int)) →
        s.erase p = .error .indexOutOfRange ∧ afterSt s (s.erase p) = s) ∧
      (∀ (s : slist T) (i : Int), (i < 0 ∨ i ≥ (s.length : Int)) →
        s.get i = .error .indexOutOfRange)) ∧
    ((∀ (d : dlist T) (x : T) (p : Int), (p < 0 ∨ p > (d.length : Int)) →
        d.insert x p = .error .indexOutOfRange ∧ afterSt d (d.insert x p) = d) ∧
      (∀ (d : dlist T) (p : Int), (p < 0 ∨ p ≥ (d.length : Int)) →
        d.erase p = .error .indexOutOfRange ∧ afterSt d (d.erase p) = d) ∧
      (∀ (d : dlist T) (i : Int), (i < 0 ∨ i ≥ (d.length : Int)) →
        d.get i = .error .indexOutOfRange)) := by
  refine ⟨⟨?_, ?_, ?_⟩, ⟨?_, ?_, ?_⟩, ⟨?_, ?_, ?_⟩⟩
  · intro v x p hp
    have hb : p > (v.length : Int) ∨ p < 0 := by omega
    have he : v.insert x p = .error .indexOutOfRange := by
      rw [myvector.insert, if_pos hb]
    exact ⟨he, by rw [he]; rfl⟩
  · intro v p hp
    have hb : p ≥ (v.length : Int) ∨ p < 0 := by omega
    have he : v.erase p = .error .indexOutOfRange := by
      rw [myvector.erase, if_pos hb]
    exact ⟨he, by rw [he]; rfl⟩
  · intro v i hi
    have hb : i < 0 ∨ i ≥ (v.length : Int) := by omega
    rw [myvector.get, if_pos hb]
  · intro s x p hp
    have hb : p > (s.length : Int) ∨ p < 0 := by omega
    have he : s.insert x p = .error .indexOutOfRange := by
      rw [slist.insert, if_pos hb]
    exact ⟨he, by rw [he]; rfl⟩
  · intro s p hp
    have hb : p ≥ (s.length : Int) ∨ p < 0 := by omega
    have he : s.erase p = .error .indexOutOfRange := by
      rw [slist.erase, if_pos hb]
    exact ⟨he, by rw [he]; rfl⟩
  · intro s i hi
    have hb : i < 0 ∨ i ≥ (s.length : Int) := by omega
    rw [slist.get, if_pos hb]
  · intro d x p hp
    have hb : p > (d.length : Int) ∨ p < 0 := by omega
    have he : d.insert x p = .error .indexOutOfRange := by
      rw [dlist.insert, if_pos hb]
    exact ⟨he, by rw [he]; rfl⟩
  · intro d p hp
    have hb : p ≥ (d.length : Int) ∨ p < 0 := by omega
    have he : d.erase p = .error .indexOutOfRange := by
      rw [dlist.erase, if_pos hb]
    exact ⟨he, by rw [he]; rfl⟩
  · intro d i hi
    have hb : i < 0 ∨ i ≥ (d.length : Int) := by omega
    rw [dlist.get, if_pos hb]

/-- Witness for C2 at concrete inputs: the four calls named by the claim, on
an empty container of each kind (`size() = 0`). -/
theorem c2_out_of_range_witness :
    (((-1 : Int) < 0 ∨ (-1 : Int) > (((myvector.mkEmpty Int).length : Nat) : Int)) ∧
      (myvector.mkEmpty Int).insert 7 (-1) = .error .indexOutOfRange) ∧
    (((0 : Int) < 0 ∨ (0 : Int) ≥ (((myvector.mkEmpty Int).length : Nat) : Int)) ∧
      (myvector.mkEmpty Int).erase 0 = .error .indexOutOfRange) ∧
    ((slist.mkEmpty Int).get 0 = .error .indexOutOfRange) ∧
    ((slist.mkEmpty Int).erase (-1) = .error .indexOutOfRange) ∧
    ((dlist.mkEmpty Int).insert 7 1 = .error .indexOutOfRange) ∧
    ((dlist.mkEmpty Int).erase 0 = .error .indexOutOfRange) := by
  refine ⟨⟨by decide, ?_⟩, ⟨by decide, ?_⟩, ?_, ?_, ?_, ?_⟩
  · exact ((c2_out_of_range (T := Int)).1.1 (myvector.mkEmpty Int) 7 (-1) (by decide)).1
  · exact ((c2_out_of_range (T := Int)).1.2.1 (myvector.mkEmpty Int) 0 (by decide)).1
  · exact (c2_out_of_range (T := Int)).2.1.2.2 (slist.mkEmpty Int) 0 (by decide)
  · exact ((c2_out_of_range (T := Int)).2.1.2.1 (slist.mkEmpty Int) (-1) (by decide)).1
  · exact ((c2_out_of_range (T := Int)).2.2.1 (dlist.mkEmpty Int) 7 1 (by decide)).1
  · exact ((c2_out_of_range (T := Int)).2.2.2.1 (dlist.mkEmpty Int) 0 (by decide)).1

/-- C5: copy assignment produces a deep, independent duplicate: the target's
element sequence equals the source's (for `DynamicArray` the fresh buffer's
capacity and the length also match the source's).  The copy is built into
freshly allocated storage (a new buffer, or new nodes appended one by one), so
no storage is shared with the source; in this value-semantics model a
subsequent mutation of either container is a function of that container alone
and cannot change the other's sequence. -/
theorem c5_copy_independent {T : Type} [Inhabited T] :
    (∀ dst src : myvector T, src.Good →
      (dst.copyAssign src false).toList = src.toList ∧
      (dst.copyAssign src false).capacity = src.capacity ∧
      (dst.copyAssign src false).length = src.length) ∧
    (∀ dst src : slist T, (dst.copyAssign src false).toList = src.toList) ∧
    (∀ dst src : dlist T, (dst.copyAssign src false).toList = src.toList) := by
  refine ⟨?_, ?_, ?_⟩
  · intro dst src hg
    obtain ⟨h1, h2, h3, _⟩ := myvector.copyAssign_sequence dst src hg
    exact ⟨h1, h2, h3⟩
  · intro dst src
    exact (slist.copyAssign_copy dst src).1
  · intro dst src
    exact (dlist.copyAssign_wf dst src).choose_spec.2

/-- Witness for C5 at a concrete input: copying a two-element vector. -/
theorem c5_copy_independent_witness :
    ((myvector.mkEmpty Int).push_back 1).Good ∧
    ((myvector.mkEmpty Int).copyAssign ((myvector.mkEmpty Int).push_back 1) false).toList
      = ((myvector.mkEmpty Int).push_back 1).toList :=
  ⟨by decide,
   ((c5_copy_independent (T := Int)).1 (myvector.mkEmpty Int)
     ((myvector.mkEmpty Int).push_back 1) (by decide)).1⟩

/-- C7: appending the elements of any finite sequence `S` to a freshly
constructed container and then iterating from begin to end (the `toList`
functions are exactly what the forward iterators yield) produces `S` itself,
for all three container kinds. -/
theorem c7_roundtrip {T : Type} [Inhabited T] (S : List T) :
    (S.foldl myvector.push_back (myvector.mkEmpty T)).toList = S ∧
    (S.foldl slist.push_back (slist.mkEmpty T)).toList = S ∧
    (S.foldl dlist.push_back (dlist.mkEmpty T)).toList = S := by
  refine ⟨?_, ?_, ?_⟩
  · have := (myvector.foldl_sequence S (myvector.mkEmpty T) myvector.mkEmpty_Good).2
    rwa [myvector.mkEmpty_seq_nil, List.nil_append] at this
  · have := (slist.foldl_append S (slist.mkEmpty T)).1
    simpa [slist.mkEmpty, slist.toList] using this
  · obtain ⟨ids2, hw2, hv2⟩ := dlist.foldl_wf S (dlist.mkEmpty T) [] dlist.mkEmpty_wf
    rw [dlist.toList_eq _ ids2 hw2, hv2]
    rfl

/-- C8: `display()` renders the container's elements in logical order, each
followed by a single space, terminated by a newline; the print functions read
the container and return text only — they perform no mutation, which the model
reflects by their type (`container → String`). -/
theorem c8_display {T : Type} [Inhabited T] [ToString T] :
    (∀ v : myvector T, v.Good → v.print = rowString v.toList ++ "\n") ∧
    (∀ s : slist T, s.print = rowString s.toList ++ "\n") ∧
    (∀ d : dlist T, d.print = rowString d.toList ++ "\n") := by
  refine ⟨?_, ?_, ?_⟩
  · exact fun v hg => myvector.print_spec v hg
  · intro s
    rfl
  · intro d
    rw [dlist.print, dPrintAux_row]
    rfl

/-- Witness for C8 at a concrete input: printing a one-element vector. -/
theorem c8_display_witness :
    ((myvector.mkEmpty Int).push_back 3).Good ∧
    ((myvector.mkEmpty Int).push_back 3).print
      = rowString ((myvector.mkEmpty Int).push_back 3).toList ++ "\n" :=
  ⟨by decide, (c8_display (T := Int)).1 ((myvector.mkEmpty Int).push_back 3) (by decide)⟩

/-- C6: for every container of any of the three kinds and every value `x`,
`insert(x, size())` behaves identically to `append(x)` — for `DynamicArray`
and `SinglyChain` the resulting states are equal, for `DoublyChain` the
resulting element sequence and size are equal — and `insert(x, 0)` on an
empty (default-constructed) container yields a one-element container whose
`at(0)` is `x`. -/
theorem c6_insert_boundary {T : Type} [Inhabited T] :
    (∀ (v : myvector T) (x : T), v.insert x (v.length : Int) = .ok (v.push_back x)) ∧
    (∀ (s : slist T) (x : T), s.Wf → s.insert x (s.length : Int) = .ok (s.push_back x)) ∧
    (∀ (d : dlist T) (ids : List Nat) (x : T), d.Wf ids →
      (afterSt d (d.insert x (d.length : Int))).toList = (d.push_back x).toList ∧
      (afterSt d (d.insert x (d.length : Int))).length = (d.push_back x).length) ∧
    (∀ x : T,
      ((afterSt (myvector.mkEmpty T) ((myvector.mkEmpty T).insert x 0)).toList = [x] ∧
        (afterSt (myvector.mkEmpty T) ((myvector.mkEmpty T).insert x 0)).get 0 = .ok x) ∧
      ((afterSt (slist.mkEmpty T) ((slist.mkEmpty T).insert x 0)).toList = [x] ∧
        (afterSt (slist.mkEmpty T) ((slist.mkEmpty T).insert x 0)).get 0 = .ok x) ∧
      ((afterSt (dlist.mkEmpty T) ((dlist.mkEmpty T).insert x 0)).toList = [x] ∧
        (afterSt (dlist.mkEmpty T) ((dlist.mkEmpty T).insert x 0)).get 0 = .ok x)) := by
  refine ⟨?_, ?_, ?_, ?_⟩
  · intro v x
    have hch : ¬ ((v.length : Int) > (v.length : Int) ∨ (v.length : Int) < 0) := by omega
    simp only [myvector.insert, myvector.push_back]
    rw [if_neg hch]
    have htn : ((v.length : Int)).toNat = v.length := Int.toNat_natCast v.length
    rw [htn]
    by_cases hfull : v.length = v.capacity
    · simp only [if_pos hfull]
      rw [show v.resize.length = v.length from rfl]
      rw [shiftRightCells_self]
    · simp only [if_neg hfull]
      rw [shiftRightCells_self]
  · intro s x hw
    have hwl : s.length = s.head.length := hw
    have hch : ¬ ((s.length : Int) > (s.length : Int) ∨ (s.length : Int) < 0) := by omega
    simp only [slist.insert, slist.push_back]
    rw [if_neg hch]
    by_cases h0 : (s.length : Int) = 0
    · rw [if_pos h0]
      have hnil : s.head = [] := by
        have hl0 : s.head.length = 0 := by omega
        exact List.eq_nil_of_length_eq_zero hl0
      rw [hnil]
      rfl
    · rw [if_neg h0]
      have htn : ((s.length : Int)).toNat = s.length := Int.toNat_natCast _
      rw [htn]
      have hlen1 : 1 ≤ s.length := by omega
      have hlt : s.length - 1 < s.head.length := by omega
      rw [sSplice_spec x s.head (s.length - 1) hlt, sAttach_eq]
      rw [show s.length - 1 + 1 = s.length by omega, hwl]
      rw [List.take_length, List.drop_length]
  · intro d ids x hw
    have hln0 : d.length = ids.length := hw.2.2
    obtain ⟨d2, he, hw2, hv2, hl2⟩ :=
      dlist.insert_wf d x (d.length : Int) ids hw (by omega) (by omega)
    obtain ⟨hwp, hvp, _⟩ := dlist.push_back_wf d x ids hw
    have hpn : ((d.length : Int)).toNat = d.length := Int.toNat_natCast _
    have hvlen : (valsOf d.heap ids).length = ids.length := by simp [valsOf]
    constructor
    · rw [he]
      show d2.toList = _
      rw [dlist.toList_eq d2 _ hw2, dlist.toList_eq (d.push_back x) _ hwp, hv2, hvp]
      rw [hpn, hln0, ← hvlen, List.take_length, List.drop_length]
    · rw [he]
      show d2.length = _
      rw [hl2]
      have hplen : (d.push_back x).length = (ids ++ [d.heap.length]).length := hwp.2.2
      rw [hplen]
      simp [hln0]
  · intro x
    exact ⟨⟨rfl, rfl⟩, ⟨rfl, rfl⟩, ⟨rfl, rfl⟩⟩

/-- Witness for C6 at concrete inputs: a one-element singly and doubly linked
list, inserting at position `size()`. -/
theorem c6_insert_boundary_witness :
    ((slist.mkEmpty Int).push_back 1).Wf ∧
    ((slist.mkEmpty Int).push_back 1).insert 9 ((((slist.mkEmpty Int).push_back 1).length : Nat) : Int)
      = .ok (((slist.mkEmpty Int).push_back 1).push_back 9) ∧
    ((dlist.mkEmpty Int).push_back 1).Wf ([] ++ [(dlist.mkEmpty Int).heap.length]) ∧
    (afterSt ((dlist.mkEmpty Int).push_back 1)
        (((dlist.mkEmpty Int).push_back 1).insert 9
          ((((dlist.mkEmpty Int).push_back 1).length : Nat) : Int))).toList
      = (((dlist.mkEmpty Int).push_back 1).push_back 9).toList := by
  have h1 : ((slist.mkEmpty Int).push_back 1).Wf := by decide
  have h2 : ((dlist.mkEmpty Int).push_back 1).Wf ([] ++ [(dlist.mkEmpty Int).heap.length]) :=
    (dlist.push_back_wf (dlist.mkEmpty Int) 1 [] dlist.mkEmpty_wf).1
  exact ⟨h1, (c6_insert_boundary (T := Int)).2.1 _ 9 h1,
    h2, ((c6_insert_boundary (T := Int)).2.2.1 _ _ 9 h2).1⟩
